import Mathlib

/-!
Verification of the `bstjs` binary search tree (`src/bst.js`).

The JavaScript code manipulates a graph of mutable `BstNode` objects linked by
`parent` / `left` / `right` references.  We embed it shallowly: every node
object is addressed by a numeric identity (`Nat`), the mutable store is an
association list from identities to node records, and each method of
`BinarySearchTree` becomes a function on an explicit state.  Loops and the
recursive helpers are written with an explicit fuel argument (JavaScript loops
have no structural termination measure); all top-level entry points pass a fuel
that is proved sufficient on well-formed states.  Keys are modelled as `Int`
(the tests only use numbers).  `new BstNode(...)` allocation is modelled by a
monotone counter `nextId` in the state.
-/

set_option autoImplicit false

open scoped List

namespace BstJs

/-- One `BstNode` object from `src/bst.js`: a key plus the `parent`, `left`,
`right` references (`null` becomes `none`, an object reference becomes the
identity of the referenced node). -/
structure BstNode where
  key : Int
  parent : Option Nat
  left : Option Nat
  right : Option Nat
  deriving DecidableEq, Repr

/-- The object store: node identities mapped to node records. -/
abbrev Heap := List (Nat × BstNode)

/-- Read the record of identity `i` (first binding wins). -/
def hget : Heap → Nat → Option BstNode
  | [], _ => none
  | (j, nd) :: rest, i => if i = j then some nd else hget rest i

/-- Overwrite (or create) the record of identity `i`. -/
def hset (h : Heap) (i : Nat) (nd : BstNode) : Heap :=
  (i, nd) :: h

/-- Mutation `x.left = v` on the object with identity `i`. -/
def setLeft (h : Heap) (i : Nat) (v : Option Nat) : Heap :=
  match hget h i with
  | some nd => hset h i { nd with left := v }
  | none => h

/-- Mutation `x.right = v` on the object with identity `i`. -/
def setRight (h : Heap) (i : Nat) (v : Option Nat) : Heap :=
  match hget h i with
  | some nd => hset h i { nd with right := v }
  | none => h

/-- Mutation `x.parent = v` on the object with identity `i`. -/
def setParent (h : Heap) (i : Nat) (v : Option Nat) : Heap :=
  match hget h i with
  | some nd => hset h i { nd with parent := v }
  | none => h

/-- `BstNode.addLeft` from `src/bst.js`: `this.left = node; node.parent = this`.
Both arguments are node identities, so the `instanceof BstNode` guard of the
source is satisfied by construction and its `Invalid argument` throw cannot
fire. -/
def addLeft (h : Heap) (self : Nat) (node : Nat) : Heap :=
  setParent (setLeft h self (some node)) node (some self)

/-- `BstNode.addRight` from `src/bst.js`: `this.right = node; node.parent = this`. -/
def addRight (h : Heap) (self : Nat) (node : Nat) : Heap :=
  setParent (setRight h self (some node)) node (some self)

/-- The `BinarySearchTree` state: the store, the `root` reference, the `_size`
counter and the allocation counter for fresh node identities. -/
structure BinarySearchTree where
  heap : Heap
  root : Option Nat
  _size : Int
  nextId : Nat
  deriving DecidableEq, Repr

/-- `new BinarySearchTree()`: empty store, `root = null`, `_size = 0`. -/
def emptyTree : BinarySearchTree := ⟨[], none, 0, 0⟩

/-- `size()`. -/
def BinarySearchTree.size (t : BinarySearchTree) : Int := t._size

/-- `isEmpty()`. -/
def BinarySearchTree.isEmpty (t : BinarySearchTree) : Bool := t.root = none

/-- The loop of `search`: `while (node != null && node.key != key) ...`,
descending left when `node.key > key` and right otherwise.  The fuel-exhaustion
and dangling-reference branches are unreachable on well-formed states. -/
def searchAux : Nat → Heap → Option Nat → Int → Option Nat
  | 0, _, _, _ => none
  | _ + 1, _, none, _ => none
  | fuel + 1, h, some i, key =>
    match hget h i with
    | none => none
    | some nd =>
      if nd.key = key then some i
      else if nd.key > key then searchAux fuel h nd.left key
      else searchAux fuel h nd.right key

/-- `search(key)`, returning the identity of the found node or `none`. -/
def BinarySearchTree.search (t : BinarySearchTree) (key : Int) : Option Nat :=
  searchAux (t.heap.length + 1) t.heap t.root key

/-- Errors thrown by the source (`throw new Error(...)`). -/
inductive JsError where
  | duplicateKey : Int → JsError
  | invalidArgument : JsError
  deriving DecidableEq, Repr

/-- The descent loop of `insert`: walks down from the root tracking the last
visited node (`parent`), throwing on an equal key. -/
def insertLoop : Nat → Heap → Option Nat → Int → Option Nat →
    Except JsError (Option Nat)
  | 0, _, _, _, parent => .ok parent
  | _ + 1, _, none, _, parent => .ok parent
  | fuel + 1, h, some i, key, _ =>
    match hget h i with
    | none => .ok (some i)
    | some nd =>
      if key = nd.key then .error (.duplicateKey key)
      else if key < nd.key then insertLoop fuel h nd.left key (some i)
      else insertLoop fuel h nd.right key (some i)

/-- `insert(key)`.  The JavaScript method throws on a duplicate key, leaving
the object untouched (the throw precedes every mutation); we model the
observable outcome as the pair of the resulting state and the optional thrown
error. -/
def BinarySearchTree.insert (t : BinarySearchTree) (key : Int) :
    BinarySearchTree × Option JsError :=
  match insertLoop (t.heap.length + 1) t.heap t.root key none with
  | .error e => (t, some e)
  | .ok parentOpt =>
    let nid := t.nextId
    let h0 := hset t.heap nid ⟨key, none, none, none⟩
    match parentOpt with
    | none =>
      ({ heap := h0, root := some nid, _size := t._size + 1, nextId := nid + 1 }, none)
    | some p =>
      match hget t.heap p with
      | none => (t, some .invalidArgument)
      | some pnd =>
        if key < pnd.key then
          ({ heap := addLeft h0 p nid, root := t.root, _size := t._size + 1,
             nextId := nid + 1 }, none)
        else
          ({ heap := addRight h0 p nid, root := t.root, _size := t._size + 1,
             nextId := nid + 1 }, none)

/-- The loop of `checkInvariant`.  The JavaScript `queue` is used as a stack
(`push`/`pop` at the end); we keep the top of that stack at the head of the
list, so the source's `push(left); push(right)` becomes prepending
`right :: left ::`.  `mapUnique` (keyed on object identity) is the `visited`
list.  Fuel exhaustion is unreachable with the fuel passed below. -/
def checkInvariantAux : Nat → Heap → List Nat → List Nat → Bool
  | 0, _, _, _ => false
  | _ + 1, _, [], _ => true
  | fuel + 1, h, i :: rest, visited =>
    if i ∈ visited then false
    else
      match hget h i with
      | none => true
      | some nd =>
        match nd.left, nd.right with
        | some l, some r =>
          match hget h l, hget h r with
          | some lnd, some rnd =>
            if lnd.key > nd.key then false
            else if rnd.key < nd.key then false
            else checkInvariantAux fuel h (r :: l :: rest) (i :: visited)
          | _, _ => true
        | some l, none =>
          match hget h l with
          | some lnd =>
            if lnd.key > nd.key then false
            else checkInvariantAux fuel h (l :: rest) (i :: visited)
          | none => true
        | none, some r =>
          match hget h r with
          | some rnd =>
            if rnd.key < nd.key then false
            else checkInvariantAux fuel h (r :: rest) (i :: visited)
          | none => true
        | none, none => checkInvariantAux fuel h rest (i :: visited)

/-- `checkInvariant()`. -/
def BinarySearchTree.checkInvariant (t : BinarySearchTree) : Bool :=
  match t.root with
  | none => true
  | some r => checkInvariantAux (2 * t.heap.length + 2) t.heap [r] []

/-- The recursive helper of `inOrderKeys` (`inOrderRec`): a leaf pushes the
node itself, an inner node recurses left, pushes itself, recurses right.  The
accumulated array is threaded explicitly. -/
def inOrderAux : Nat → Heap → List Nat → Option Nat → List Nat
  | 0, _, arr, _ => arr
  | _ + 1, _, arr, none => arr
  | fuel + 1, h, arr, some i =>
    match hget h i with
    | none => arr
    | some nd =>
      if nd.left = none ∧ nd.right = none then arr ++ [i]
      else
        let arr1 := inOrderAux fuel h arr nd.left
        inOrderAux fuel h (arr1 ++ [i]) nd.right

/-- `inOrderKeys()`: note that the source pushes the *nodes* (not the keys);
the result is the list of node identities in traversal order. -/
def BinarySearchTree.inOrderKeys (t : BinarySearchTree) : List Nat :=
  inOrderAux (t.heap.length + 1) t.heap [] t.root

/-- The loop of `preOrderKeys`: pops a stack entry (the JavaScript array end is
the head of our list) and, for a non-null node, appends the keys of its
children to `arr` (left first) and pushes `right` then `left` (so `left` is on
top). -/
def preOrderAux : Nat → Heap → List Int → List (Option Nat) → List Int
  | 0, _, arr, _ => arr
  | _ + 1, _, arr, [] => arr
  | fuel + 1, h, arr, none :: rest => preOrderAux fuel h arr rest
  | fuel + 1, h, arr, some i :: rest =>
    match hget h i with
    | none => preOrderAux fuel h arr rest
    | some nd =>
      let arr1 :=
        match nd.left with
        | some l => match hget h l with
          | some lnd => arr ++ [lnd.key]
          | none => arr
        | none => arr
      let arr2 :=
        match nd.right with
        | some r => match hget h r with
          | some rnd => arr1 ++ [rnd.key]
          | none => arr1
        | none => arr1
      preOrderAux fuel h arr2 (nd.left :: nd.right :: rest)

/-- `preOrderKeys()`: seeds `arr` with the root key and the stack with the
root reference. -/
def BinarySearchTree.preOrderKeys (t : BinarySearchTree) : List Int :=
  let arr :=
    match t.root with
    | some r => match hget t.heap r with
      | some nd => [nd.key]
      | none => []
    | none => []
  preOrderAux (2 * t.heap.length + 2) t.heap arr [t.root]

/-- The loop of `min`: follow `left` until it is `null`. -/
def minAux : Nat → Heap → Option Nat → Option Nat
  | 0, _, cur => cur
  | _ + 1, _, none => none
  | fuel + 1, h, some i =>
    match hget h i with
    | none => some i
    | some nd =>
      match nd.left with
      | some l => minAux fuel h (some l)
      | none => some i

/-- `min(node)` (the source's default argument `node = this.root` is supplied
at the call sites). -/
def BinarySearchTree.min (t : BinarySearchTree) (node : Option Nat) : Option Nat :=
  minAux (t.heap.length + 1) t.heap node

/-- The loop of `max`: follow `right` until it is `null`. -/
def maxAux : Nat → Heap → Option Nat → Option Nat
  | 0, _, cur => cur
  | _ + 1, _, none => none
  | fuel + 1, h, some i =>
    match hget h i with
    | none => some i
    | some nd =>
      match nd.right with
      | some r => maxAux fuel h (some r)
      | none => some i

/-- `max(node)`. -/
def BinarySearchTree.max (t : BinarySearchTree) (node : Option Nat) : Option Nat :=
  maxAux (t.heap.length + 1) t.heap node

/-- The upward walk of `pred`: `let p = node.parent; while (p != null &&
p.left == node) { node = p; p = node.parent; } return p`. -/
def predWalk : Nat → Heap → Nat → Option Nat
  | 0, _, _ => none
  | fuel + 1, h, node =>
    match hget h node with
    | none => none
    | some nd =>
      match nd.parent with
      | none => none
      | some p =>
        match hget h p with
        | none => none
        | some pnd =>
          if pnd.left = some node then predWalk fuel h p
          else some p

/-- `pred(node)`: the maximum of the left branch when it exists, otherwise the
upward walk. -/
def BinarySearchTree.pred (t : BinarySearchTree) (nodeOpt : Option Nat) : Option Nat :=
  match nodeOpt with
  | none => none
  | some i =>
    match hget t.heap i with
    | none => none
    | some nd =>
      match nd.left with
      | some _ => t.max nd.left
      | none => predWalk (t.heap.length + 1) t.heap i

/-- `predecessor(key)`: resolve the key with `search`, then `pred`. -/
def BinarySearchTree.predecessor (t : BinarySearchTree) (key : Int) : Option Nat :=
  t.pred (t.search key)

/-- The upward walk of `succ`: symmetric to `predWalk` with `p.right == node`. -/
def succWalk : Nat → Heap → Nat → Option Nat
  | 0, _, _ => none
  | fuel + 1, h, node =>
    match hget h node with
    | none => none
    | some nd =>
      match nd.parent with
      | none => none
      | some p =>
        match hget h p with
        | none => none
        | some pnd =>
          if pnd.right = some node then succWalk fuel h p
          else some p

/-- `succ(node)`: the minimum of the right branch when it exists, otherwise
the upward walk. -/
def BinarySearchTree.succ (t : BinarySearchTree) (nodeOpt : Option Nat) : Option Nat :=
  match nodeOpt with
  | none => none
  | some i =>
    match hget t.heap i with
    | none => none
    | some nd =>
      match nd.right with
      | some _ => t.min nd.right
      | none => succWalk (t.heap.length + 1) t.heap i

/-- `successor(key)`: resolve the key with `search`, then `succ`. -/
def BinarySearchTree.successor (t : BinarySearchTree) (key : Int) : Option Nat :=
  t.succ (t.search key)

/-- `_transplant(nodeFrom, nodeTo)`: rewrites the child pointer of
`nodeTo.parent` (or `root`) to `nodeFrom` and, when `nodeFrom` is non-null,
sets `nodeFrom.parent = nodeTo.parent` (re-read from the updated store, as the
source reads it after the first mutation). -/
def BinarySearchTree.transplant (t : BinarySearchTree)
    (nodeFrom nodeTo : Option Nat) : BinarySearchTree :=
  match nodeTo with
  | none => t
  | some to_ =>
    match hget t.heap to_ with
    | none => t
    | some toNd =>
      let t1 :=
        match toNd.parent with
        | none => { t with root := nodeFrom }
        | some p =>
          match hget t.heap p with
          | none => t
          | some pnd =>
            if pnd.left = some to_ then { t with heap := setLeft t.heap p nodeFrom }
            else { t with heap := setRight t.heap p nodeFrom }
      match nodeFrom with
      | none => t1
      | some fr =>
        match hget t1.heap to_ with
        | none => t1
        | some toNd1 => { t1 with heap := setParent t1.heap fr toNd1.parent }

/-- `del(node)`: the three-case transplant deletion.  Every field is re-read
from the current store at the program point where the source reads it. -/
def BinarySearchTree.del (t : BinarySearchTree) (nodeOpt : Option Nat) :
    BinarySearchTree :=
  match nodeOpt with
  | none => t
  | some n =>
    match hget t.heap n with
    | none => t
    | some nd =>
      let t' :=
        match nd.left, nd.right with
        | none, _ => t.transplant nd.right (some n)
        | some _, none => t.transplant nd.left (some n)
        | some _, some nr =>
          match minAux (t.heap.length + 1) t.heap (some nr) with
          | none => t
          | some s =>
            let t1 :=
              if nr ≠ s then
                match hget t.heap s with
                | none => t
                | some snd_ =>
                  let ta := t.transplant snd_.right (some s)
                  match hget ta.heap n with
                  | none => ta
                  | some nd' =>
                    let tb := { ta with heap := setRight ta.heap s nd'.right }
                    match nd'.right with
                    | some nrr => { tb with heap := setParent tb.heap nrr (some s) }
                    | none => tb
              else t
            let t2 := t1.transplant (some s) (some n)
            match hget t2.heap n with
            | none => t2
            | some nd'' =>
              let t3 := { t2 with heap := setLeft t2.heap s nd''.left }
              match nd''.left with
              | some nll => { t3 with heap := setParent t3.heap nll (some s) }
              | none => t3
      { t' with _size := t'._size - 1 }

/-- `delete(key)`: `del(search(key))`. -/
def BinarySearchTree.delete (t : BinarySearchTree) (key : Int) : BinarySearchTree :=
  t.del (t.search key)

/-! ## Abstraction: inductive trees represented in the store

`ITree` records the shape of the pointer structure reachable from a reference:
each inner node carries the identity and the key of the object realising it.
`IsRepr h p r T` states that reference `r`, whose holder's back-pointer must be
`p`, lays out the tree `T` in the store `h` — in particular it forces every
reachable `parent` field to point at the structural parent. -/

/-- Shape-and-content abstraction of the pointer structure. -/
inductive ITree where
  | leaf : ITree
  | node : ITree → Nat → Int → ITree → ITree
  deriving DecidableEq, Repr

/-- Node identities in traversal (in-order) order. -/
def ids : ITree → List Nat
  | .leaf => []
  | .node L i _ R => ids L ++ i :: ids R

/-- In-order list of (identity, key) pairs. -/
def assoc : ITree → List (Nat × Int)
  | .leaf => []
  | .node L i k R => assoc L ++ (i, k) :: assoc R

/-- In-order list of keys. -/
def keysT (T : ITree) : List Int := (assoc T).map (·.2)

/-- Number of nodes. -/
def sizeT : ITree → Nat
  | .leaf => 0
  | .node L _ _ R => sizeT L + sizeT R + 1

/-- Height (leaves have height 0). -/
def heightT : ITree → Nat
  | .leaf => 0
  | .node L _ _ R => Nat.max (heightT L) (heightT R) + 1

/-- The binary-search-tree ordering invariant (strict, duplicate-free). -/
def Ordered : ITree → Prop
  | .leaf => True
  | .node L _ k R =>
      Ordered L ∧ Ordered R ∧ (∀ k' ∈ keysT L, k' < k) ∧ (∀ k' ∈ keysT R, k < k')

instance Ordered.dec : (T : ITree) → Decidable (Ordered T)
  | .leaf => .isTrue trivial
  | .node L i k R =>
    have : Decidable (Ordered L) := Ordered.dec L
    have : Decidable (Ordered R) := Ordered.dec R
    by unfold Ordered; infer_instance

/-- `IsRepr h p r T`: reference `r` (with expected back-pointer `p`) lays out
the tree `T` in store `h`. -/
inductive IsRepr (h : Heap) : Option Nat → Option Nat → ITree → Prop where
  | leaf (p : Option Nat) : IsRepr h p none .leaf
  | node (p : Option Nat) (i : Nat) (k : Int) (l r : Option Nat) (L R : ITree) :
      hget h i = some ⟨k, p, l, r⟩ →
      IsRepr h (some i) l L → IsRepr h (some i) r R →
      IsRepr h p (some i) (.node L i k R)

@[simp] theorem ids_leaf : ids .leaf = [] := rfl

@[simp] theorem ids_node (L : ITree) (i : Nat) (k : Int) (R : ITree) :
    ids (.node L i k R) = ids L ++ i :: ids R := rfl

@[simp] theorem assoc_leaf : assoc .leaf = [] := rfl

@[simp] theorem assoc_node (L : ITree) (i : Nat) (k : Int) (R : ITree) :
    assoc (.node L i k R) = assoc L ++ (i, k) :: assoc R := rfl

@[simp] theorem keysT_leaf : keysT .leaf = [] := rfl

@[simp] theorem keysT_node (L : ITree) (i : Nat) (k : Int) (R : ITree) :
    keysT (.node L i k R) = keysT L ++ k :: keysT R := by
  simp [keysT]

@[simp] theorem sizeT_leaf : sizeT .leaf = 0 := rfl

@[simp] theorem sizeT_node (L : ITree) (i : Nat) (k : Int) (R : ITree) :
    sizeT (.node L i k R) = sizeT L + sizeT R + 1 := rfl

@[simp] theorem ordered_leaf : Ordered .leaf := trivial

theorem ordered_node_iff (L : ITree) (i : Nat) (k : Int) (R : ITree) :
    Ordered (.node L i k R) ↔
      Ordered L ∧ Ordered R ∧ (∀ k' ∈ keysT L, k' < k) ∧ (∀ k' ∈ keysT R, k < k') :=
  Iff.rfl

theorem length_ids (T : ITree) : (ids T).length = sizeT T := by
  induction T with
  | leaf => rfl
  | node L i k R ihL ihR => simp [ihL, ihR]; omega

theorem length_assoc (T : ITree) : (assoc T).length = sizeT T := by
  induction T with
  | leaf => rfl
  | node L i k R ihL ihR => simp [ihL, ihR]; omega

theorem map_fst_assoc (T : ITree) : (assoc T).map (·.1) = ids T := by
  induction T with
  | leaf => rfl
  | node L i k R ihL ihR => simp [ihL, ihR]

/-! ### Store read/write lemmas -/

@[simp] theorem hget_hset_self (h : Heap) (i : Nat) (nd : BstNode) :
    hget (hset h i nd) i = some nd := by
  simp [hget, hset]

theorem hget_hset_ne (h : Heap) (i j : Nat) (nd : BstNode) (hne : j ≠ i) :
    hget (hset h i nd) j = hget h j := by
  simp [hget, hset, hne]

theorem hget_setLeft_self (h : Heap) (i : Nat) (v : Option Nat) (nd : BstNode)
    (hg : hget h i = some nd) :
    hget (setLeft h i v) i = some { nd with left := v } := by
  simp [setLeft, hg]

theorem hget_setLeft_ne (h : Heap) (i j : Nat) (v : Option Nat) (hne : j ≠ i) :
    hget (setLeft h i v) j = hget h j := by
  unfold setLeft
  cases hget h i with
  | none => rfl
  | some nd => exact hget_hset_ne _ _ _ _ hne

theorem hget_setRight_self (h : Heap) (i : Nat) (v : Option Nat) (nd : BstNode)
    (hg : hget h i = some nd) :
    hget (setRight h i v) i = some { nd with right := v } := by
  simp [setRight, hg]

theorem hget_setRight_ne (h : Heap) (i j : Nat) (v : Option Nat) (hne : j ≠ i) :
    hget (setRight h i v) j = hget h j := by
  unfold setRight
  cases hget h i with
  | none => rfl
  | some nd => exact hget_hset_ne _ _ _ _ hne

theorem hget_setParent_self (h : Heap) (i : Nat) (v : Option Nat) (nd : BstNode)
    (hg : hget h i = some nd) :
    hget (setParent h i v) i = some { nd with parent := v } := by
  simp [setParent, hg]

theorem hget_setParent_ne (h : Heap) (i j : Nat) (v : Option Nat) (hne : j ≠ i) :
    hget (setParent h i v) j = hget h j := by
  unfold setParent
  cases hget h i with
  | none => rfl
  | some nd => exact hget_hset_ne _ _ _ _ hne

theorem length_setLeft (h : Heap) (i : Nat) (v : Option Nat) :
    (setLeft h i v).length = h.length ∨ (setLeft h i v).length = h.length + 1 := by
  unfold setLeft
  cases hget h i with
  | none => exact Or.inl rfl
  | some nd => exact Or.inr rfl

/-! ### Representation basics -/

theorem IsRepr.eq_leaf {h : Heap} {p : Option Nat} {T : ITree}
    (hr : IsRepr h p none T) : T = .leaf := by
  cases hr; rfl

theorem IsRepr.node_inv {h : Heap} {p : Option Nat} {i : Nat} {T : ITree}
    (hr : IsRepr h p (some i) T) :
    ∃ k l r L R, T = .node L i k R ∧ hget h i = some ⟨k, p, l, r⟩ ∧
      IsRepr h (some i) l L ∧ IsRepr h (some i) r R := by
  cases hr with
  | node p i k l r L R hg hl hrr => exact ⟨k, l, r, L, R, rfl, hg, hl, hrr⟩

/-- Every identity of a represented tree resolves in the store. -/
theorem IsRepr.hget_mem {h : Heap} {p r : Option Nat} {T : ITree}
    (hr : IsRepr h p r T) : ∀ i ∈ ids T, ∃ nd, hget h i = some nd := by
  induction hr with
  | leaf => intro i hi; simp at hi
  | node p i k l r L R hg hl hrr ihl ihr =>
    intro j hj
    simp at hj
    rcases hj with hj | rfl | hj
    · exact ihl j hj
    · exact ⟨_, hg⟩
    · exact ihr j hj

/-- Stores agreeing on the identities of `T` represent `T` alike. -/
theorem IsRepr.congr {h h' : Heap} {p r : Option Nat} {T : ITree}
    (hr : IsRepr h p r T) (hag : ∀ i ∈ ids T, hget h' i = hget h i) :
    IsRepr h' p r T := by
  induction hr with
  | leaf => exact .leaf _
  | node p i k l r L R hg hl hrr ihl ihr =>
    refine .node p i k l r L R ?_ ?_ ?_
    · rw [hag i (by simp)]; exact hg
    · exact ihl fun j hj => hag j (by simp [hj])
    · exact ihr fun j hj => hag j (by simp [hj])

theorem IsRepr.leaf_ref {h : Heap} {p r : Option Nat}
    (hr : IsRepr h p r .leaf) : r = none := by
  cases hr; rfl

theorem IsRepr.node_ref {h : Heap} {p r : Option Nat} {L R : ITree} {i : Nat} {k : Int}
    (hr : IsRepr h p r (.node L i k R)) : r = some i := by
  cases hr; rfl

theorem IsRepr.root_mem {h : Heap} {p : Option Nat} {i : Nat} {T : ITree}
    (hr : IsRepr h p (some i) T) : i ∈ ids T := by
  obtain ⟨k, l, r, L, R, rfl, -, -, -⟩ := hr.node_inv
  simp

/-- A resolving identity occurs among the binding keys of the store. -/
theorem mem_map_fst_of_hget {h : Heap} {i : Nat} {nd : BstNode}
    (hg : hget h i = some nd) : i ∈ h.map (·.1) := by
  induction h with
  | nil => simp [hget] at hg
  | cons b rest ih =>
    obtain ⟨j, nd'⟩ := b
    by_cases hij : i = j
    · subst hij; simp
    · simp [hget, hij] at hg
      simp [ih hg]

/-- A represented tree with distinct identities has at most as many nodes as
the store has bindings. -/
theorem sizeT_le_length {h : Heap} {p r : Option Nat} {T : ITree}
    (hr : IsRepr h p r T) (hnd : (ids T).Nodup) : sizeT T ≤ h.length := by
  have hsub : ids T ⊆ h.map (·.1) := by
    intro i hi
    obtain ⟨nd, hg⟩ := hr.hget_mem i hi
    exact mem_map_fst_of_hget hg
  have := (hnd.subperm hsub).length_le
  simpa [length_ids] using this

theorem heightT_le_sizeT (T : ITree) : heightT T ≤ sizeT T := by
  induction T with
  | leaf => simp [heightT]
  | node L i k R ihL ihR => simp [heightT]; omega

/-! ### The full state invariant -/

/-- Well-formedness of a `BinarySearchTree` state: the store lays out an
inductive tree `T` from the root (which in particular makes every reachable
`parent` pointer agree with the structure and the root's parent `none`), the
identities are pairwise distinct (no sharing), the keys satisfy the strict
ordering invariant, `_size` counts the nodes, and all identities are below the
allocation counter. -/
structure Inv (t : BinarySearchTree) (T : ITree) : Prop where
  repr : IsRepr t.heap none t.root T
  nodup : (ids T).Nodup
  ordered : Ordered T
  size_eq : t._size = (sizeT T : Int)
  bound : ∀ i ∈ ids T, i < t.nextId

theorem heightT_lt_fuel {t : BinarySearchTree} {T : ITree}
    (hr : IsRepr t.heap none t.root T) (hnd : (ids T).Nodup) :
    heightT T < t.heap.length + 1 := by
  have h1 := heightT_le_sizeT T
  have h2 := sizeT_le_length hr hnd
  omega

/-! ### Functional descent: `search` -/

/-- Functional mirror of the `search` descent. -/
def findT : ITree → Int → Option Nat
  | .leaf, _ => none
  | .node L i k R, key =>
    if k = key then some i
    else if k > key then findT L key
    else findT R key

theorem searchAux_eq {T : ITree} :
    ∀ {h : Heap} {p r : Option Nat} {fuel : Nat} (key : Int),
      IsRepr h p r T → heightT T < fuel → searchAux fuel h r key = findT T key := by
  induction T with
  | leaf =>
    intro h p r fuel key hr hfuel
    cases hr
    cases fuel with
    | zero => omega
    | succ f => rfl
  | node L i k R ihL ihR =>
    intro h p r fuel key hr hfuel
    cases hr with
    | node _ _ _ l r' _ _ hg hl hrr =>
      cases fuel with
      | zero => simp [heightT] at hfuel
      | succ f =>
        have hfl : heightT L < f := by simp [heightT] at hfuel; omega
        have hfr : heightT R < f := by simp [heightT] at hfuel; omega
        simp only [searchAux, hg, findT]
        by_cases h1 : k = key
        · simp [h1]
        · by_cases h2 : k > key
          · simpa [h1, h2] using ihL key hl hfl
          · simpa [h1, h2] using ihR key hrr hfr

theorem search_eq_findT {t : BinarySearchTree} {T : ITree} (hi : Inv t T)
    (key : Int) : t.search key = findT T key :=
  searchAux_eq key hi.repr (heightT_lt_fuel hi.repr hi.nodup)

theorem findT_mem {T : ITree} {key : Int} {i : Nat}
    (hf : findT T key = some i) : (i, key) ∈ assoc T := by
  induction T with
  | leaf => simp [findT] at hf
  | node L j k R ihL ihR =>
    by_cases h1 : k = key
    · simp [findT, h1] at hf
      subst h1; subst hf
      simp
    · by_cases h2 : k > key
      · simp [findT, h1, h2] at hf
        have := ihL hf
        simp [this]
      · simp [findT, h1, h2] at hf
        have := ihR hf
        simp [this]

theorem findT_none_of_not_mem {T : ITree} {key : Int}
    (hk : key ∉ keysT T) : findT T key = none := by
  induction T with
  | leaf => rfl
  | node L j k R ihL ihR =>
    simp at hk
    push_neg at hk
    obtain ⟨hkL, hne, hkR⟩ := hk
    have h1 : k ≠ key := fun h => hne h.symm
    by_cases h2 : k > key
    · simp [findT, h1, h2, ihL hkL]
    · simp [findT, h1, h2, ihR hkR]

theorem findT_isSome_of_mem {T : ITree} {key : Int} (hord : Ordered T)
    (hk : key ∈ keysT T) : ∃ i, findT T key = some i ∧ (i, key) ∈ assoc T := by
  induction T with
  | leaf => simp at hk
  | node L j k R ihL ihR =>
    obtain ⟨hoL, hoR, hbL, hbR⟩ := hord
    simp at hk
    rcases hk with hk | hk | hk
    · have h1 : k ≠ key := fun h => by
        have := hbL key hk; omega
      have h2 : k > key := hbL key hk
      obtain ⟨i, hi, hmem⟩ := ihL hoL hk
      exact ⟨i, by simp [findT, h1, h2, hi], by simp [hmem]⟩
    · exact ⟨j, by simp [findT, hk], by simp [hk]⟩
    · have h2' : k < key := hbR key hk
      have h1 : k ≠ key := by omega
      have h2 : ¬ k > key := by omega
      obtain ⟨i, hi, hmem⟩ := ihR hoR hk
      exact ⟨i, by simp [findT, h1, h2, hi], by simp [hmem]⟩

theorem search_none_iff {t : BinarySearchTree} {T : ITree} (hi : Inv t T)
    (key : Int) : t.search key = none ↔ key ∉ keysT T := by
  rw [search_eq_findT hi]
  constructor
  · intro hn hk
    obtain ⟨i, hi', -⟩ := findT_isSome_of_mem hi.ordered hk
    rw [hi'] at hn; cases hn
  · exact findT_none_of_not_mem

/-! ### Functional descent: `insert` -/

/-- Functional mirror of the `insert` descent loop. -/
def insLoopT : ITree → Int → Option Nat → Except JsError (Option Nat)
  | .leaf, _, parent => .ok parent
  | .node L i k R, key, _ =>
    if key = k then .error (.duplicateKey key)
    else if key < k then insLoopT L key (some i)
    else insLoopT R key (some i)

/-- The tree produced by a successful insertion, the fresh node getting
identity `nid`. -/
def insertT : ITree → Nat → Int → ITree
  | .leaf, nid, key => .node .leaf nid key .leaf
  | .node L i k R, nid, key =>
    if key < k then .node (insertT L nid key) i k R
    else .node L i k (insertT R nid key)

theorem insertLoop_eq {T : ITree} :
    ∀ {h : Heap} {p r par : Option Nat} {fuel : Nat} (key : Int),
      IsRepr h p r T → heightT T < fuel →
      insertLoop fuel h r key par = insLoopT T key par := by
  induction T with
  | leaf =>
    intro h p r par fuel key hr hfuel
    cases hr
    cases fuel with
    | zero => omega
    | succ f => rfl
  | node L i k R ihL ihR =>
    intro h p r par fuel key hr hfuel
    cases hr with
    | node _ _ _ l r' _ _ hg hl hrr =>
      cases fuel with
      | zero => simp [heightT] at hfuel
      | succ f =>
        have hfl : heightT L < f := by simp [heightT] at hfuel; omega
        have hfr : heightT R < f := by simp [heightT] at hfuel; omega
        simp only [insertLoop, hg, insLoopT]
        by_cases h1 : key = k
        · simp [h1]
        · by_cases h2 : key < k
          · simpa [h1, h2] using ihL key hl hfl
          · simpa [h1, h2] using ihR key hrr hfr

theorem insLoopT_dup {T : ITree} {key : Int} (hord : Ordered T)
    (hk : key ∈ keysT T) : ∀ par, insLoopT T key par = .error (.duplicateKey key) := by
  induction T with
  | leaf => simp at hk
  | node L j k R ihL ihR =>
    intro par
    obtain ⟨hoL, hoR, hbL, hbR⟩ := hord
    simp at hk
    rcases hk with hk | hk | hk
    · have h2 : key < k := hbL key hk
      have h1 : key ≠ k := by omega
      simp [insLoopT, h1, h2, ihL hoL hk]
    · simp [insLoopT, hk]
    · have h2' : k < key := hbR key hk
      have h1 : key ≠ k := by omega
      have h2 : ¬ key < k := by omega
      simp [insLoopT, h1, h2, ihR hoR hk]

theorem keysT_insertT (T : ITree) (nid : Nat) (key : Int) :
    keysT (insertT T nid key) ~ key :: keysT T := by
  induction T with
  | leaf => simp [insertT]
  | node L j k R ihL ihR =>
    by_cases h2 : key < k
    · simp only [insertT, if_pos h2, keysT_node]
      calc keysT (insertT L nid key) ++ k :: keysT R
          ~ (key :: keysT L) ++ k :: keysT R := (ihL).append_right _
        _ = key :: (keysT L ++ k :: keysT R) := rfl
    · simp only [insertT, if_neg h2, keysT_node]
      calc keysT L ++ k :: keysT (insertT R nid key)
          ~ keysT L ++ k :: (key :: keysT R) := by
            exact ((ihR.cons k).append_left (keysT L))
        _ ~ key :: (keysT L ++ k :: keysT R) := by
            have : keysT L ++ k :: key :: keysT R ~ key :: (keysT L ++ k :: keysT R) := by
              have h1 : (k : Int) :: key :: keysT R ~ key :: k :: keysT R :=
                List.Perm.swap _ _ _
              calc keysT L ++ k :: key :: keysT R
                  ~ keysT L ++ key :: k :: keysT R := h1.append_left _
                _ ~ key :: (keysT L ++ k :: keysT R) :=
                    (@List.perm_middle _ key (keysT L) (k :: keysT R))
            exact this

theorem ids_insertT (T : ITree) (nid : Nat) (key : Int) :
    ids (insertT T nid key) ~ nid :: ids T := by
  induction T with
  | leaf => simp [insertT]
  | node L j k R ihL ihR =>
    by_cases h2 : key < k
    · simp only [insertT, if_pos h2, ids_node]
      calc ids (insertT L nid key) ++ j :: ids R
          ~ (nid :: ids L) ++ j :: ids R := (ihL).append_right _
        _ = nid :: (ids L ++ j :: ids R) := rfl
    · simp only [insertT, if_neg h2, ids_node]
      calc ids L ++ j :: ids (insertT R nid key)
          ~ ids L ++ j :: (nid :: ids R) := ((ihR.cons j).append_left (ids L))
        _ ~ nid :: (ids L ++ j :: ids R) := by
            have h1 : j :: nid :: ids R ~ nid :: j :: ids R := List.Perm.swap _ _ _
            calc ids L ++ j :: nid :: ids R
                ~ ids L ++ nid :: j :: ids R := h1.append_left _
              _ ~ nid :: (ids L ++ j :: ids R) :=
                  (@List.perm_middle _ nid (ids L) (j :: ids R))

theorem ordered_insertT {T : ITree} {key : Int} (hord : Ordered T)
    (hk : key ∉ keysT T) (nid : Nat) : Ordered (insertT T nid key) := by
  induction T with
  | leaf => simp [insertT, Ordered]
  | node L j k R ihL ihR =>
    obtain ⟨hoL, hoR, hbL, hbR⟩ := hord
    simp at hk
    push_neg at hk
    obtain ⟨hkL, hne, hkR⟩ := hk
    by_cases h2 : key < k
    · simp only [insertT, if_pos h2]
      refine ⟨ihL hoL hkL, hoR, ?_, hbR⟩
      intro k' hk'
      have := (keysT_insertT L nid key).mem_iff.mp hk'
      simp at this
      rcases this with rfl | h
      · exact h2
      · exact hbL k' h
    · simp only [insertT, if_neg h2]
      refine ⟨hoL, ihR hoR hkR, hbL, ?_⟩
      intro k' hk'
      have := (keysT_insertT R nid key).mem_iff.mp hk'
      simp at this
      rcases this with rfl | h
      · omega
      · exact hbR k' h

theorem sizeT_insertT (T : ITree) (nid : Nat) (key : Int) :
    sizeT (insertT T nid key) = sizeT T + 1 := by
  induction T with
  | leaf => rfl
  | node L j k R ihL ihR =>
    by_cases h2 : key < k
    · simp [insertT, h2, ihL]; omega
    · simp [insertT, h2, ihR]; omega

/-! ### Effect of the insertion writes on the store -/

theorem hget_addLeft_other (h : Heap) (p nid j : Nat) (newN : BstNode)
    (hjp : j ≠ p) (hjn : j ≠ nid) :
    hget (addLeft (hset h nid newN) p nid) j = hget h j := by
  unfold addLeft
  rw [hget_setParent_ne _ _ _ _ hjn, hget_setLeft_ne _ _ _ _ hjp,
    hget_hset_ne _ _ _ _ hjn]

theorem hget_addLeft_parent (h : Heap) (p nid : Nat) (newN pnd : BstNode)
    (hpn : p ≠ nid) (hg : hget h p = some pnd) :
    hget (addLeft (hset h nid newN) p nid) p = some { pnd with left := some nid } := by
  unfold addLeft
  rw [hget_setParent_ne _ _ _ _ hpn]
  exact hget_setLeft_self _ _ _ _ (by rw [hget_hset_ne _ _ _ _ hpn]; exact hg)

theorem hget_addLeft_new (h : Heap) (p nid : Nat) (key : Int) (hnp : nid ≠ p) :
    hget (addLeft (hset h nid ⟨key, none, none, none⟩) p nid) nid =
      some ⟨key, some p, none, none⟩ := by
  unfold addLeft
  have h1 : hget (setLeft (hset h nid ⟨key, none, none, none⟩) p (some nid)) nid
      = some ⟨key, none, none, none⟩ := by
    rw [hget_setLeft_ne _ _ _ _ hnp]; exact hget_hset_self _ _ _
  rw [hget_setParent_self _ _ _ _ h1]

theorem hget_addRight_other (h : Heap) (p nid j : Nat) (newN : BstNode)
    (hjp : j ≠ p) (hjn : j ≠ nid) :
    hget (addRight (hset h nid newN) p nid) j = hget h j := by
  unfold addRight
  rw [hget_setParent_ne _ _ _ _ hjn, hget_setRight_ne _ _ _ _ hjp,
    hget_hset_ne _ _ _ _ hjn]

theorem hget_addRight_parent (h : Heap) (p nid : Nat) (newN pnd : BstNode)
    (hpn : p ≠ nid) (hg : hget h p = some pnd) :
    hget (addRight (hset h nid newN) p nid) p = some { pnd with right := some nid } := by
  unfold addRight
  rw [hget_setParent_ne _ _ _ _ hpn]
  exact hget_setRight_self _ _ _ _ (by rw [hget_hset_ne _ _ _ _ hpn]; exact hg)

theorem hget_addRight_new (h : Heap) (p nid : Nat) (key : Int) (hnp : nid ≠ p) :
    hget (addRight (hset h nid ⟨key, none, none, none⟩) p nid) nid =
      some ⟨key, some p, none, none⟩ := by
  unfold addRight
  have h1 : hget (setRight (hset h nid ⟨key, none, none, none⟩) p (some nid)) nid
      = some ⟨key, none, none, none⟩ := by
    rw [hget_setRight_ne _ _ _ _ hnp]; exact hget_hset_self _ _ _
  rw [hget_setParent_self _ _ _ _ h1]

/-- Simulation of a successful non-root insertion: the descent loop ends at a
node `p` of the tree, and attaching the fresh node there lays out
`insertT T nid key`. -/
theorem insert_go {key : Int} {nid : Nat} {T : ITree} :
    ∀ {h : Heap} {par : Option Nat} {rt : Nat},
      IsRepr h par (some rt) T → (ids T).Nodup → Ordered T →
      key ∉ keysT T → (∀ j ∈ ids T, j ≠ nid) →
      ∃ p pnd, insLoopT T key par = .ok (some p) ∧ p ∈ ids T ∧
        hget h p = some pnd ∧
        IsRepr (if key < pnd.key then addLeft (hset h nid ⟨key, none, none, none⟩) p nid
                else addRight (hset h nid ⟨key, none, none, none⟩) p nid)
          par (some rt) (insertT T nid key) := by
  induction T with
  | leaf =>
    intro h par rt hr
    cases hr
  | node L i k R ihL ihR =>
    intro h par rt hr hnd hord hk hfresh
    cases hr with
    | node _ _ _ l r' _ _ hg hl hrr =>
      obtain ⟨hoL, hoR, hbL, hbR⟩ := hord
      simp at hk
      push_neg at hk
      obtain ⟨hkL, hkne, hkR⟩ := hk
      have hik : key ≠ k := hkne
      have hine : i ≠ nid := hfresh i (by simp)
      have hndL : (ids L).Nodup := hnd.of_append_left
      have hndIR : ((i :: ids R).Nodup) := hnd.of_append_right
      have hndR : (ids R).Nodup := (List.nodup_cons.mp hndIR).2
      have hiR : i ∉ ids R := (List.nodup_cons.mp hndIR).1
      have hdisjIR : (ids L).Disjoint (i :: ids R) := List.disjoint_of_nodup_append hnd
      have hiL : i ∉ ids L := fun hmem => hdisjIR hmem (by simp)
      have hdisj : ∀ a ∈ ids L, a ∉ ids R := fun a ha hb => hdisjIR ha (by simp [hb])
      have hfreshL : ∀ j ∈ ids L, j ≠ nid := fun j hj =>
        hfresh j (List.mem_append_left _ hj)
      have hfreshR : ∀ j ∈ ids R, j ≠ nid := fun j hj =>
        hfresh j (List.mem_append_right _ (List.mem_cons_of_mem _ hj))
      by_cases h2 : key < k
      · -- descend left
        cases hL : L with
        | leaf =>
          -- attach as the left child of node i
          have hlnone : l = none := by
            subst hL; cases hl; rfl
          refine ⟨i, ⟨k, par, l, r'⟩, ?_, by simp, hg, ?_⟩
          · simp [insLoopT, hik, h2, hL]
          · have hkey : key < (BstNode.mk k par l r').key := h2
            rw [if_pos hkey]
            subst hL
            simp only [insertT, if_pos h2]
            refine .node par i k (some nid) r' _ R ?_ ?_ ?_
            · rw [hget_addLeft_parent h i nid _ _ hine hg, hlnone]
            · exact .node (some i) nid key none none .leaf .leaf
                (hget_addLeft_new h i nid key (fun hh => hine hh.symm)) (.leaf _) (.leaf _)
            · refine hrr.congr ?_
              intro j hj
              exact hget_addLeft_other h i nid j _
                (fun hh => hiR (hh ▸ hj)) (hfreshR j hj)
        | node LL li lk LR =>
          subst hL
          have hlref : l = some li := by cases hl; rfl
          subst hlref
          obtain ⟨p, pnd, hloop, hpmem, hpg, hrep⟩ :=
            ihL hl hndL hoL hkL hfreshL
          refine ⟨p, pnd, ?_, List.mem_append_left _ hpmem, hpg, ?_⟩
          · rw [insLoopT, if_neg hik, if_pos h2]
            exact hloop
          · rw [insertT, if_pos h2]
            have hpi : p ≠ i := fun hh => hiL (hh ▸ hpmem)
            refine .node par i k (some li) r' _ R ?_ ?_ ?_
            · by_cases hkp : key < pnd.key
              · rw [if_pos hkp]
                rw [hget_addLeft_other h p nid i _ (fun hh => hpi hh.symm) hine]
                exact hg
              · rw [if_neg hkp]
                rw [hget_addRight_other h p nid i _ (fun hh => hpi hh.symm) hine]
                exact hg
            · by_cases hkp : key < pnd.key
              · rw [if_pos hkp] at hrep; rw [if_pos hkp]; exact hrep
              · rw [if_neg hkp] at hrep; rw [if_neg hkp]; exact hrep
            · refine hrr.congr ?_
              intro j hj
              have hjp : j ≠ p := fun hh => hdisj p hpmem (hh ▸ hj)
              have hjn : j ≠ nid := hfreshR j hj
              by_cases hkp : key < pnd.key
              · rw [if_pos hkp]; exact hget_addLeft_other h p nid j _ hjp hjn
              · rw [if_neg hkp]; exact hget_addRight_other h p nid j _ hjp hjn
      · -- descend right
        cases hR : R with
        | leaf =>
          have hrnone : r' = none := by
            subst hR; cases hrr; rfl
          refine ⟨i, ⟨k, par, l, r'⟩, ?_, by simp, hg, ?_⟩
          · simp [insLoopT, hik, h2, hR]
          · have hkey : ¬ key < (BstNode.mk k par l r').key := h2
            rw [if_neg hkey]
            subst hR
            simp only [insertT, if_neg h2]
            refine .node par i k l (some nid) L _ ?_ ?_ ?_
            · rw [hget_addRight_parent h i nid _ _ hine hg, hrnone]
            · refine hl.congr ?_
              intro j hj
              exact hget_addRight_other h i nid j _
                (fun hh => hiL (hh ▸ hj)) (hfreshL j hj)
            · exact .node (some i) nid key none none .leaf .leaf
                (hget_addRight_new h i nid key (fun hh => hine hh.symm)) (.leaf _) (.leaf _)
        | node RL ri rk RR =>
          subst hR
          have hrref : r' = some ri := by cases hrr; rfl
          subst hrref
          obtain ⟨p, pnd, hloop, hpmem, hpg, hrep⟩ :=
            ihR hrr hndR hoR hkR hfreshR
          refine ⟨p, pnd, ?_,
            List.mem_append_right _ (List.mem_cons_of_mem _ hpmem), hpg, ?_⟩
          · rw [insLoopT, if_neg hik, if_neg h2]
            exact hloop
          · rw [insertT, if_neg h2]
            have hpi : p ≠ i := fun hh => hiR (hh ▸ hpmem)
            refine .node par i k l (some ri) L _ ?_ ?_ ?_
            · by_cases hkp : key < pnd.key
              · rw [if_pos hkp]
                rw [hget_addLeft_other h p nid i _ (fun hh => hpi hh.symm) hine]
                exact hg
              · rw [if_neg hkp]
                rw [hget_addRight_other h p nid i _ (fun hh => hpi hh.symm) hine]
                exact hg
            · refine hl.congr ?_
              intro j hj
              have hjp : j ≠ p := fun hh => hdisj j hj (hh ▸ hpmem)
              have hjn : j ≠ nid := hfreshL j hj
              by_cases hkp : key < pnd.key
              · rw [if_pos hkp]; exact hget_addLeft_other h p nid j _ hjp hjn
              · rw [if_neg hkp]; exact hget_addRight_other h p nid j _ hjp hjn
            · exact hrep

/-- A duplicate insertion throws `Duplicate key` and returns the state
unchanged. -/
theorem insert_dup {t : BinarySearchTree} {T : ITree} {key : Int} (hi : Inv t T)
    (hk : key ∈ keysT T) : t.insert key = (t, some (.duplicateKey key)) := by
  unfold BinarySearchTree.insert
  rw [insertLoop_eq key hi.repr (heightT_lt_fuel hi.repr hi.nodup),
    insLoopT_dup hi.ordered hk none]

/-- A non-duplicate insertion succeeds and the new state lays out
`insertT T nid key` with `nid` the allocated identity. -/
theorem insert_ok {t : BinarySearchTree} {T : ITree} {key : Int} (hi : Inv t T)
    (hk : key ∉ keysT T) :
    ∃ t', t.insert key = (t', none) ∧ Inv t' (insertT T t.nextId key) ∧
      t'._size = t._size + 1 ∧ t'.nextId = t.nextId + 1 := by
  have hfuel := heightT_lt_fuel hi.repr hi.nodup
  have hloopEq : insertLoop (t.heap.length + 1) t.heap t.root key none =
      insLoopT T key none := insertLoop_eq key hi.repr hfuel
  have hnidT : (ids (insertT T t.nextId key)) ~ t.nextId :: ids T :=
    ids_insertT T t.nextId key
  have hfresh : t.nextId ∉ ids T := fun hmem => absurd (hi.bound _ hmem) (by omega)
  have hnd' : (ids (insertT T t.nextId key)).Nodup :=
    hnidT.nodup_iff.mpr (List.nodup_cons.mpr ⟨hfresh, hi.nodup⟩)
  have hord' : Ordered (insertT T t.nextId key) := ordered_insertT hi.ordered hk _
  have hsz : (sizeT (insertT T t.nextId key) : Int) = sizeT T + 1 := by
    rw [sizeT_insertT]; push_cast; ring
  have hbnd : ∀ j ∈ ids (insertT T t.nextId key), j < t.nextId + 1 := by
    intro j hj
    have := hnidT.mem_iff.mp hj
    simp at this
    rcases this with rfl | hmem
    · omega
    · have := hi.bound j hmem; omega
  cases hT : T with
  | leaf =>
    subst hT
    have hroot : t.root = none := hi.repr.leaf_ref
    refine ⟨{ heap := hset t.heap t.nextId ⟨key, none, none, none⟩,
              root := some t.nextId, _size := t._size + 1, nextId := t.nextId + 1 },
      ?_, ?_, rfl, rfl⟩
    · unfold BinarySearchTree.insert
      rw [hloopEq]
      simp [insLoopT]
    · refine ⟨?_, hnd', hord', ?_, hbnd⟩
      · exact .node none t.nextId key none none .leaf .leaf
          (hget_hset_self _ _ _) (.leaf _) (.leaf _)
      · simp only []
        rw [hi.size_eq]
        simpa using hsz.symm
  | node L rt k R =>
    subst hT
    have hroot : t.root = some rt := hi.repr.node_ref
    have hfreshT : ∀ j ∈ ids (ITree.node L rt k R), j ≠ t.nextId := by
      intro j hj hje
      have := hi.bound j hj
      omega
    obtain ⟨p, pnd, hloop, hpmem, hpg, hrep⟩ :=
      @insert_go key t.nextId (ITree.node L rt k R) t.heap none rt
        (hroot ▸ hi.repr) hi.nodup hi.ordered hk hfreshT
    by_cases hkp : key < pnd.key
    · rw [if_pos hkp] at hrep
      refine ⟨{ heap := addLeft (hset t.heap t.nextId ⟨key, none, none, none⟩) p t.nextId,
                root := t.root, _size := t._size + 1, nextId := t.nextId + 1 },
        ?_, ?_, rfl, rfl⟩
      · unfold BinarySearchTree.insert
        rw [hloopEq, hloop]
        simp only [hpg, if_pos hkp]
      · refine ⟨by rw [hroot]; exact hrep, hnd', hord', ?_, hbnd⟩
        simp only []
        rw [hi.size_eq]
        simpa using hsz.symm
    · rw [if_neg hkp] at hrep
      refine ⟨{ heap := addRight (hset t.heap t.nextId ⟨key, none, none, none⟩) p t.nextId,
                root := t.root, _size := t._size + 1, nextId := t.nextId + 1 },
        ?_, ?_, rfl, rfl⟩
      · unfold BinarySearchTree.insert
        rw [hloopEq, hloop]
        simp only [hpg, if_neg hkp]
      · refine ⟨by rw [hroot]; exact hrep, hnd', hord', ?_, hbnd⟩
        simp only []
        rw [hi.size_eq]
        simpa using hsz.symm

/-- Deleting an absent key returns the state literally unchanged. -/
theorem delete_not_mem {t : BinarySearchTree} {T : ITree} {key : Int}
    (hi : Inv t T) (hk : key ∉ keysT T) : t.delete key = t := by
  unfold BinarySearchTree.delete
  rw [(search_none_iff hi key).mpr hk]
  rfl

/-! ### Path contexts for the deletion proof

A `Path` is a one-hole context recorded from the hole outwards: `fromLeft i k R
P` means the hole is the left child of the node with identity `i` and key `k`,
whose right subtree is `R`, with `P` the context above `i`.  `PathOk h tp tr P
hp hr` states that the context is laid out in the store `h` with outer
boundary `tp`/`tr` (the expected parent and reference of the whole plugged
tree) and hole boundary `hp`/`hr` (the parent of the hole and the reference
currently stored in the hole's slot). -/

inductive Path where
  | stop : Path
  | fromLeft : Nat → Int → ITree → Path → Path
  | fromRight : ITree → Nat → Int → Path → Path

/-- Fill the hole of a context with a subtree. -/
def plugP : Path → ITree → ITree
  | .stop, S => S
  | .fromLeft i k R P, S => plugP P (.node S i k R)
  | .fromRight L i k P, S => plugP P (.node L i k S)

/-- All node identities mentioned by a context. -/
def pathIds : Path → List Nat
  | .stop => []
  | .fromLeft i _ R P => i :: ids R ++ pathIds P
  | .fromRight L i _ P => i :: ids L ++ pathIds P

/-- In-order pairs of the context strictly before the hole. -/
def beforeA : Path → List (Nat × Int)
  | .stop => []
  | .fromLeft _ _ _ P => beforeA P
  | .fromRight L i k P => beforeA P ++ assoc L ++ [(i, k)]

/-- In-order pairs of the context strictly after the hole. -/
def afterA : Path → List (Nat × Int)
  | .stop => []
  | .fromLeft i k R P => ((i, k) :: assoc R) ++ afterA P
  | .fromRight _ _ _ P => afterA P

theorem assoc_plugP (P : Path) (S : ITree) :
    assoc (plugP P S) = beforeA P ++ assoc S ++ afterA P := by
  induction P generalizing S with
  | stop => simp [plugP, beforeA, afterA]
  | fromLeft i k R P ih => simp [plugP, beforeA, afterA, ih]
  | fromRight L i k P ih => simp [plugP, beforeA, afterA, ih]

theorem keysT_plugP (P : Path) (S : ITree) :
    keysT (plugP P S) =
      (beforeA P).map (·.2) ++ keysT S ++ (afterA P).map (·.2) := by
  simp [keysT, assoc_plugP]

theorem ids_plugP (P : Path) (S : ITree) :
    ids (plugP P S) = (beforeA P).map (·.1) ++ ids S ++ (afterA P).map (·.1) := by
  rw [← map_fst_assoc, assoc_plugP, ← map_fst_assoc]
  simp

theorem pathIds_perm (P : Path) :
    pathIds P ~ (beforeA P).map (·.1) ++ (afterA P).map (·.1) := by
  induction P with
  | stop => simp [pathIds, beforeA, afterA]
  | fromLeft i k R P ih =>
    refine List.perm_iff_count.mpr (fun a => ?_)
    have := List.perm_iff_count.mp ih a
    simp [pathIds, beforeA, afterA, List.count_append, List.count_cons,
      ← map_fst_assoc] at this ⊢
    omega
  | fromRight L i k P ih =>
    refine List.perm_iff_count.mpr (fun a => ?_)
    have := List.perm_iff_count.mp ih a
    simp [pathIds, beforeA, afterA, List.count_append, List.count_cons,
      ← map_fst_assoc] at this ⊢
    omega

/-- The correctness relation for contexts; see the section comment. -/
inductive PathOk (h : Heap) (tp tr : Option Nat) : Path → Option Nat → Option Nat → Prop where
  | stop : PathOk h tp tr .stop tp tr
  | fromLeft (P : Path) (gp : Option Nat) (i : Nat) (k : Int) (R : ITree)
      (rr hr : Option Nat) :
      PathOk h tp tr P gp (some i) →
      hget h i = some ⟨k, gp, hr, rr⟩ →
      IsRepr h (some i) rr R →
      PathOk h tp tr (.fromLeft i k R P) (some i) hr
  | fromRight (P : Path) (gp : Option Nat) (L : ITree) (i : Nat) (k : Int)
      (lr hr : Option Nat) :
      PathOk h tp tr P gp (some i) →
      hget h i = some ⟨k, gp, lr, hr⟩ →
      IsRepr h (some i) lr L →
      PathOk h tp tr (.fromRight L i k P) (some i) hr

/-- Plugging a correctly laid-out subtree into a correct context yields a
correct representation of the plugged tree. -/
theorem PathOk.plug {h : Heap} {tp tr : Option Nat} {P : Path} {hp hr : Option Nat}
    (hok : PathOk h tp tr P hp hr) :
    ∀ {S : ITree}, IsRepr h hp hr S → IsRepr h tp tr (plugP P S) := by
  induction hok with
  | stop => intro S hS; exact hS
  | fromLeft P gp i k R rr hr hok hg hR ih =>
    intro S hS
    exact ih (.node gp i k hr rr S R hg hS hR)
  | fromRight P gp L i k lr hr hok hg hL ih =>
    intro S hS
    exact ih (.node gp i k lr hr L S hg hL hS)

/-- Concatenation of contexts, the first being the inner one. -/
def pathAppend : Path → Path → Path
  | .stop, Q => Q
  | .fromLeft i k R P, Q => .fromLeft i k R (pathAppend P Q)
  | .fromRight L i k P, Q => .fromRight L i k (pathAppend P Q)

theorem plugP_append (P Q : Path) (S : ITree) :
    plugP (pathAppend P Q) S = plugP Q (plugP P S) := by
  induction P generalizing S with
  | stop => rfl
  | fromLeft i k R P ih => simp [pathAppend, plugP, ih]
  | fromRight L i k P ih => simp [pathAppend, plugP, ih]

theorem pathIds_append (P Q : Path) :
    pathIds (pathAppend P Q) = pathIds P ++ pathIds Q := by
  induction P with
  | stop => rfl
  | fromLeft i k R P ih => simp [pathAppend, pathIds, ih]
  | fromRight L i k P ih => simp [pathAppend, pathIds, ih]

theorem PathOk.append {h : Heap} {tp tr mp mr : Option Nat} {P : Path}
    {hp hr : Option Nat} (h1 : PathOk h mp mr P hp hr) :
    ∀ {Q : Path}, PathOk h tp tr Q mp mr → PathOk h tp tr (pathAppend P Q) hp hr := by
  induction h1 with
  | stop => intro Q h2; exact h2
  | fromLeft P gp i k R rr hr hok hg hR ih =>
    intro Q h2
    exact .fromLeft (pathAppend P Q) gp i k R rr hr (ih h2) hg hR
  | fromRight P gp L i k lr hr hok hg hL ih =>
    intro Q h2
    exact .fromRight (pathAppend P Q) gp L i k lr hr (ih h2) hg hL

/-- Stores agreeing on the context's identities carry the same `PathOk`. -/
theorem PathOk.congrP {h h' : Heap} {tp tr : Option Nat} {P : Path}
    {hp hr : Option Nat} (hok : PathOk h tp tr P hp hr)
    (hag : ∀ j ∈ pathIds P, hget h' j = hget h j) : PathOk h' tp tr P hp hr := by
  induction hok with
  | stop => exact .stop
  | fromLeft P gp i k R rr hr hok hg hR ih =>
    refine .fromLeft P gp i k R rr hr ?_ ?_ ?_
    · exact ih fun j hj => hag j (by simp [pathIds, hj])
    · rw [hag i (by simp [pathIds])]; exact hg
    · exact hR.congr fun j hj => hag j (by simp [pathIds, hj])
  | fromRight P gp L i k lr hr hok hg hL ih =>
    refine .fromRight P gp L i k lr hr ?_ ?_ ?_
    · exact ih fun j hj => hag j (by simp [pathIds, hj])
    · rw [hag i (by simp [pathIds])]; exact hg
    · exact hL.congr fun j hj => hag j (by simp [pathIds, hj])

/-- A represented tree decomposes, at any node found by the functional
descent, into a correct context and the subtree rooted at that node. -/
theorem repr_decomp {T : ITree} :
    ∀ {h : Heap} {tp tr : Option Nat} {key : Int} {n : Nat},
      IsRepr h tp tr T → findT T key = some n →
      ∃ P SL SR hp, T = plugP P (.node SL n key SR) ∧
        PathOk h tp tr P hp (some n) ∧ IsRepr h hp (some n) (.node SL n key SR) := by
  induction T with
  | leaf => intro h tp tr key n hr hf; simp [findT] at hf
  | node L i k R ihL ihR =>
    intro h tp tr key n hr hf
    cases hr with
    | node _ _ _ l r' _ _ hg hl hrr =>
      by_cases h1 : k = key
      · subst h1
        simp [findT] at hf
        subst hf
        exact ⟨.stop, L, R, tp, rfl, .stop, .node tp i k l r' L R hg hl hrr⟩
      · by_cases h2 : k > key
        · rw [findT, if_neg h1, if_pos h2] at hf
          obtain ⟨P, SL, SR, hp, hTeq, hok, hS⟩ := ihL hl hf
          refine ⟨pathAppend P (.fromLeft i k R .stop), SL, SR, hp, ?_, ?_, hS⟩
          · rw [plugP_append, hTeq]
            rfl
          · exact hok.append (.fromLeft .stop tp i k R r' l .stop hg hrr)
        · rw [findT, if_neg h1, if_neg h2] at hf
          obtain ⟨P, SL, SR, hp, hTeq, hok, hS⟩ := ihR hrr hf
          refine ⟨pathAppend P (.fromRight L i k .stop), SL, SR, hp, ?_, ?_, hS⟩
          · rw [plugP_append, hTeq]
            rfl
          · exact hok.append (.fromRight .stop tp L i k l r' .stop hg hl)

/-! ### Ordering via sorted key lists -/

theorem sorted_append_iff {l l' : List Int} :
    (l ++ l').Sorted (· < ·) ↔
      l.Sorted (· < ·) ∧ l'.Sorted (· < ·) ∧ ∀ a ∈ l, ∀ b ∈ l', a < b :=
  List.pairwise_append

theorem ordered_iff_sorted (T : ITree) :
    Ordered T ↔ (keysT T).Sorted (· < ·) := by
  induction T with
  | leaf => simp [keysT]
  | node L i k R ihL ihR =>
    rw [keysT_node, sorted_append_iff, List.sorted_cons, ordered_node_iff, ihL, ihR]
    constructor
    · rintro ⟨hL, hR, hbL, hbR⟩
      refine ⟨hL, ⟨hbR, hR⟩, ?_⟩
      intro a ha b hb
      simp at hb
      rcases hb with rfl | hb
      · exact hbL a ha
      · exact lt_trans (hbL a ha) (hbR b hb)
    · rintro ⟨hL, ⟨hbR, hR⟩, hcross⟩
      refine ⟨hL, hR, ?_, hbR⟩
      intro a ha
      exact hcross a ha k (by simp)

theorem Ordered.keys_nodup {T : ITree} (hord : Ordered T) : (keysT T).Nodup :=
  ((ordered_iff_sorted T).mp hord).nodup

/-- Replacing the plugged subtree by one whose keys are a subset preserves the
ordering invariant. -/
theorem ordered_plug_mono {P : Path} {S S' : ITree}
    (hord : Ordered (plugP P S)) (hS' : Ordered S')
    (hsub : ∀ a ∈ keysT S', a ∈ keysT S) : Ordered (plugP P S') := by
  rw [ordered_iff_sorted, keysT_plugP] at hord ⊢
  rw [ordered_iff_sorted] at hS'
  rw [sorted_append_iff, sorted_append_iff] at hord ⊢
  obtain ⟨⟨hb, hs, hbs⟩, ha, hcross⟩ := hord
  refine ⟨⟨hb, hS', ?_⟩, ha, ?_⟩
  · intro a hab b hbk
    exact hbs a hab b (hsub b hbk)
  · intro a hmem b hb
    simp at hmem
    rcases hmem with hmem | hmem
    · exact hcross a (by simp [hmem]) b hb
    · exact hcross a (by simp [hsub a hmem]) b hb

/-- The subtree at the hole of an ordered plugged tree is ordered. -/
theorem ordered_plug_down {P : Path} {S : ITree}
    (hord : Ordered (plugP P S)) : Ordered S := by
  rw [ordered_iff_sorted, keysT_plugP, sorted_append_iff, sorted_append_iff] at hord
  rw [ordered_iff_sorted]
  exact hord.1.2.1

theorem ordered_plug_sub {P : Path} {S S' : ITree}
    (hord : Ordered (plugP P S)) (hsl : keysT S' <+ keysT S) :
    Ordered (plugP P S') :=
  ordered_plug_mono hord
    ((ordered_iff_sorted _).mpr
      (((ordered_iff_sorted S).mp (ordered_plug_down hord)).sublist hsl))
    (fun a ha => hsl.subset ha)

/-! ### Reparenting a represented subtree -/

theorem IsRepr.reparent {h : Heap} {p0 pNew : Option Nat} {fr : Nat} {S : ITree}
    (hrep : IsRepr h p0 (some fr) S) (hnd : (ids S).Nodup) :
    IsRepr (setParent h fr pNew) pNew (some fr) S := by
  cases hrep with
  | node _ _ _ l r L R hg hl hr =>
    have hfrL : fr ∉ ids L := fun hmem =>
      (List.disjoint_of_nodup_append hnd) hmem (by simp)
    have hfrR : fr ∉ ids R := (List.nodup_cons.mp hnd.of_append_right).1
    refine .node pNew fr _ l r L R ?_ ?_ ?_
    · exact hget_setParent_self _ _ _ _ hg
    · exact hl.congr fun j hj =>
        hget_setParent_ne _ _ _ _ (fun hh => hfrL (hh ▸ hj))
    · exact hr.congr fun j hj =>
        hget_setParent_ne _ _ _ _ (fun hh => hfrR (hh ▸ hj))

/-- Reparenting through an arbitrary chain of writes described pointwise. -/
theorem IsRepr.reparent_via {h h2 : Heap} {p0 pNew : Option Nat} {fr : Nat} {S : ITree}
    (hrep : IsRepr h p0 (some fr) S) (hnd : (ids S).Nodup)
    (hfr2 : ∀ frNd, hget h fr = some frNd →
      hget h2 fr = some { frNd with parent := pNew })
    (hcongr : ∀ j ∈ ids S, j ≠ fr → hget h2 j = hget h j) :
    IsRepr h2 pNew (some fr) S := by
  cases hrep with
  | node _ _ _ l r L R hg hl hr =>
    have hfrL : fr ∉ ids L := fun hmem =>
      (List.disjoint_of_nodup_append hnd) hmem (by simp)
    have hfrR : fr ∉ ids R := (List.nodup_cons.mp hnd.of_append_right).1
    refine .node pNew fr _ l r L R (hfr2 _ hg) ?_ ?_
    · exact hl.congr fun j hj =>
        hcongr j (by simp [hj]) (fun hh => hfrL (hh ▸ hj))
    · exact hr.congr fun j hj =>
        hcongr j (by simp [hj]) (fun hh => hfrR (hh ▸ hj))

/-! ### The `min` descent reaches the head of the in-order list -/

theorem minAux_head {T : ITree} :
    ∀ {h : Heap} {p : Option Nat} {rt fuel : Nat},
      IsRepr h p (some rt) T → heightT T < fuel →
      ∃ s sk, (assoc T).head? = some (s, sk) ∧ minAux fuel h (some rt) = some s := by
  induction T with
  | leaf => intro h p rt fuel hr; cases hr
  | node L i k R ihL ihR =>
    intro h p rt fuel hr hfuel
    cases hr with
    | node _ _ _ l r' _ _ hg hl hrr =>
      cases fuel with
      | zero => simp [heightT] at hfuel
      | succ f =>
        cases hL : L with
        | leaf =>
          have hlnone : l = none := by subst hL; exact hl.leaf_ref
          refine ⟨i, k, by simp [hL], ?_⟩
          simp [minAux, hg, hlnone]
        | node LL li lk LR =>
          subst hL
          have hlref : l = some li := hl.node_ref
          subst hlref
          have hfl : heightT (ITree.node LL li lk LR) < f := by
            simp [heightT] at hfuel ⊢; omega
          obtain ⟨s, sk, hhead, hmin⟩ := ihL hl hfl
          refine ⟨s, sk, ?_, ?_⟩
          · rw [assoc_node]
            cases hal : assoc (ITree.node LL li lk LR) with
            | nil => rw [hal] at hhead; cases hhead
            | cons a tl =>
              rw [hal] at hhead
              simp at hhead
              simp [hhead]
          · simp only [minAux, hg]
            exact hmin

/-! ### Functional removal of the minimum -/

/-- Remove the leftmost node, returning its identity, its key and the
remaining tree. -/
def delMin : ITree → Option (Nat × Int × ITree)
  | .leaf => none
  | .node .leaf i k R => some (i, k, R)
  | .node (.node LL li lk LR) i k R =>
    match delMin (.node LL li lk LR) with
    | some (mi, mk, L') => some (mi, mk, .node L' i k R)
    | none => none

theorem delMin_assoc {W : ITree} :
    ∀ {s : Nat} {sk : Int} {W' : ITree}, delMin W = some (s, sk, W') →
      assoc W = (s, sk) :: assoc W' := by
  induction W with
  | leaf => intro s sk W' hm; simp [delMin] at hm
  | node L i k R ihL ihR =>
    intro s sk W' hm
    cases L with
    | leaf =>
      simp [delMin] at hm
      obtain ⟨rfl, rfl, rfl⟩ := hm
      simp
    | node LL li lk LR =>
      rw [delMin] at hm
      cases hdm : delMin (ITree.node LL li lk LR) with
      | none => rw [hdm] at hm; cases hm
      | some v =>
        obtain ⟨mi, mk, L'⟩ := v
        rw [hdm] at hm
        simp at hm
        obtain ⟨rfl, rfl, rfl⟩ := hm
        rw [assoc_node, ihL hdm]
        simp

/-- The heap after the source's first transplant in the deep-successor case:
`succ.parent.left = succ.right` and, when non-null, `succ.right.parent =
succ.parent`. -/
def delMinHeap (h : Heap) (sp : Nat) (srr : Option Nat) : Heap :=
  match srr with
  | some x => setParent (setLeft h sp srr) x (some sp)
  | none => setLeft h sp srr

theorem hget_delMinHeap_other (h : Heap) (sp : Nat) (srr : Option Nat) (j : Nat)
    (hjs : j ≠ sp) (hjx : ∀ x, srr = some x → j ≠ x) :
    hget (delMinHeap h sp srr) j = hget h j := by
  cases srr with
  | none => exact hget_setLeft_ne _ _ _ _ hjs
  | some x =>
    rw [delMinHeap, hget_setParent_ne _ _ _ _ (hjx x rfl),
      hget_setLeft_ne _ _ _ _ hjs]

theorem PathOk.hp_none {h : Heap} {tp tr : Option Nat} {P : Path} {hr : Option Nat}
    (hok : PathOk h tp tr P none hr) : P = .stop ∧ tp = none ∧ tr = hr := by
  cases hok with
  | stop => exact ⟨rfl, rfl, rfl⟩

theorem nodup_node_facts {L : ITree} {i : Nat} {k : Int} {R : ITree}
    (hnd : (ids (.node L i k R)).Nodup) :
    (ids L).Nodup ∧ (ids R).Nodup ∧ i ∉ ids L ∧ i ∉ ids R ∧
      ∀ a ∈ ids L, a ∉ ids R := by
  have hndL : (ids L).Nodup := hnd.of_append_left
  have hndIR : (i :: ids R).Nodup := hnd.of_append_right
  have hdisj : (ids L).Disjoint (i :: ids R) := List.disjoint_of_nodup_append hnd
  exact ⟨hndL, (List.nodup_cons.mp hndIR).2,
    fun hmem => hdisj hmem (by simp), (List.nodup_cons.mp hndIR).1,
    fun a ha hb => hdisj ha (by simp [hb])⟩

/-- Simulation of `_transplant(succ.right, succ)` for a successor that is not
the right child of the deleted node: the leftmost node `s` of the subtree
`node WL wi wk WR` (with `WL` non-empty) is unhooked, its parent `sp` takes
`succ.right` as left child, and the store then lays out the tree with `s`
removed. -/
theorem delMin_sim {WL : ITree} :
    ∀ {h : Heap} {pp : Option Nat} {wi : Nat} {wk : Int} {WR : ITree}
      {wlr wrr : Option Nat},
      WL ≠ .leaf →
      hget h wi = some ⟨wk, pp, wlr, wrr⟩ →
      IsRepr h (some wi) wlr WL →
      IsRepr h (some wi) wrr WR →
      (ids (.node WL wi wk WR)).Nodup →
      ∃ s sk sp spnd srr WL',
        delMin WL = some (s, sk, WL') ∧
        hget h s = some ⟨sk, some sp, none, srr⟩ ∧
        hget h sp = some spnd ∧ spnd.left = some s ∧
        s ∈ ids WL ∧ sp ∈ ids (ITree.node WL wi wk WR) ∧
        (∀ x, srr = some x → x ∈ ids WL) ∧
        s ≠ sp ∧ (∀ x, srr = some x → x ≠ s ∧ x ≠ sp) ∧
        IsRepr (delMinHeap h sp srr) pp (some wi) (.node WL' wi wk WR) := by
  induction WL with
  | leaf => intro h pp wi wk WR wlr wrr hne; exact absurd rfl hne
  | node A ai ak B ihA ihB =>
    intro h pp wi wk WR wlr wrr hne hgwi hl hr hnd
    obtain ⟨hndWL, hndWR, hwiWL, hwiWR, hdisjWLR⟩ := nodup_node_facts hnd
    cases hl with
    | node _ _ _ alr abr _ _ hgai hA hB =>
      obtain ⟨hndA, hndB, haiA, haiB, hdisjAB⟩ := nodup_node_facts hndWL
      cases hAeq : A with
      | leaf =>
        subst hAeq
        have halr : alr = none := hA.leaf_ref
        subst halr
        refine ⟨ai, ak, wi, ⟨wk, pp, some ai, wrr⟩, abr, B, rfl, hgai, hgwi, rfl,
          by simp, by simp, ?_, ?_, ?_, ?_⟩
        · intro x hx
          subst hx
          exact List.mem_append_right _ (List.mem_cons_of_mem _ hB.root_mem)
        · intro hh
          exact hwiWL (hh ▸ (by simp : ai ∈ ids (ITree.node .leaf ai ak B)))
        · intro x hx
          subst hx
          constructor
          · intro hh
            exact haiB (hh ▸ hB.root_mem)
          · intro hh
            exact hwiWL (hh ▸ (List.mem_append_right _
              (List.mem_cons_of_mem _ hB.root_mem)))
        · cases habr : abr with
          | none =>
            subst habr
            have hBleaf : B = .leaf := hB.eq_leaf
            subst hBleaf
            refine .node pp wi wk none wrr .leaf WR ?_ (.leaf _) ?_
            · rw [delMinHeap, hget_setLeft_self _ _ _ _ hgwi]
            · exact hr.congr fun j hj =>
                hget_setLeft_ne _ _ _ _ (fun hh => hwiWR (hh ▸ hj))
          | some x =>
            subst habr
            have hxB : x ∈ ids B := hB.root_mem
            have hxwi : x ≠ wi := fun hh =>
              hwiWL (hh ▸ (List.mem_append_right _ (List.mem_cons_of_mem _ hxB)))
            have hB1 : IsRepr (setLeft h wi (some x)) (some ai) (some x) B :=
              hB.congr fun j hj => hget_setLeft_ne _ _ _ _
                (fun hh => hwiWL (hh ▸ (List.mem_append_right _
                  (List.mem_cons_of_mem _ hj))))
            refine .node pp wi wk (some x) wrr B WR ?_ ?_ ?_
            · rw [delMinHeap, hget_setParent_ne _ _ _ _ (Ne.symm hxwi),
                hget_setLeft_self _ _ _ _ hgwi]
            · exact hB1.reparent hndB
            · refine hr.congr fun j hj => ?_
              have hjwi : j ≠ wi := fun hh => hwiWR (hh ▸ hj)
              have hjx : j ≠ x := fun hh =>
                hdisjWLR x (List.mem_append_right _ (List.mem_cons_of_mem _ hxB))
                  (hh ▸ hj)
              rw [delMinHeap, hget_setParent_ne _ _ _ _ hjx,
                hget_setLeft_ne _ _ _ _ hjwi]
      | node AA aai aak AB =>
        subst hAeq
        have hAne : ITree.node AA aai aak AB ≠ .leaf := fun hh => ITree.noConfusion hh
        obtain ⟨s, sk, sp, spnd, srr, A', hdm, hgs, hgsp, hspl, hsA, hspA, hsrrA,
          hssp, hxss, hrep⟩ := ihA hAne hgai hA hB hndWL
        have hsWL : s ∈ ids (ITree.node (ITree.node AA aai aak AB) ai ak B) :=
          List.mem_append_left _ hsA
        have hspWL : sp ∈ ids (ITree.node (ITree.node AA aai aak AB) ai ak B) := hspA
        have hsrrWL : ∀ x, srr = some x →
            x ∈ ids (ITree.node (ITree.node AA aai aak AB) ai ak B) :=
          fun x hx => List.mem_append_left _ (hsrrA x hx)
        refine ⟨s, sk, sp, spnd, srr, .node A' ai ak B, ?_, hgs, hgsp, hspl,
          hsWL, List.mem_append_left _ hspWL, hsrrWL, hssp, hxss, ?_⟩
        · rw [delMin, hdm]
        · refine .node pp wi wk (some ai) wrr (.node A' ai ak B) WR ?_ hrep ?_
          · rw [hget_delMinHeap_other h sp srr wi
              (fun hh => hwiWL (hh ▸ hspWL))
              (fun x hx hh => hwiWL (hh ▸ hsrrWL x hx))]
            exact hgwi
          · refine hr.congr fun j hj => ?_
            refine hget_delMinHeap_other h sp srr j
              (fun hh => hdisjWLR sp hspWL (hh ▸ hj)) ?_
            intro x hx hh
            exact hdisjWLR x (hsrrWL x hx) (hh ▸ hj)

/-- Simulation of `_transplant(nodeFrom, nodeTo)` when `nodeTo` occupies the
hole of a correct context: the hole's slot (or the root) is rewritten to
`nodeFrom` and `nodeFrom.parent` is set to the hole's parent. -/
theorem transplant_hole {t : BinarySearchTree} {P : Path} {hp : Option Nat} {n : Nat}
    {toNd : BstNode} (fromRef : Option Nat)
    (hok : PathOk t.heap none t.root P hp (some n))
    (hgn : hget t.heap n = some toNd) (hpar : toNd.parent = hp)
    (hnP : n ∉ pathIds P) (hnd : (pathIds P).Nodup)
    (hfr : ∀ fr, fromRef = some fr → fr ∉ pathIds P ∧ fr ≠ n ∧
      ∃ frNd, hget t.heap fr = some frNd) :
    ∃ h2 r2, t.transplant fromRef (some n) =
        { heap := h2, root := r2, _size := t._size, nextId := t.nextId } ∧
      PathOk h2 none r2 P hp fromRef ∧
      (∀ j, j ∉ pathIds P → fromRef ≠ some j → hget h2 j = hget t.heap j) ∧
      (∀ fr frNd, fromRef = some fr → hget t.heap fr = some frNd →
        hget h2 fr = some { frNd with parent := hp }) := by
  obtain ⟨tk, tpar, tl, trr⟩ := toNd
  simp only at hpar
  subst hpar
  cases tpar with
  | none =>
    obtain ⟨hPstop, -, htr⟩ := hok.hp_none
    subst hPstop
    cases fromRef with
    | none =>
      refine ⟨t.heap, none, ?_, .stop, fun j _ _ => rfl, fun fr frNd hfr' => by cases hfr'⟩
      simp [BinarySearchTree.transplant, hgn]
    | some fr =>
      obtain ⟨-, hfrn, frNd, hgfr⟩ := hfr fr rfl
      refine ⟨setParent t.heap fr none, some fr, ?_, .stop, ?_, ?_⟩
      · simp [BinarySearchTree.transplant, hgn]
      · intro j hjP hjf
        exact hget_setParent_ne _ _ _ _ (fun hh => hjf (by rw [hh]))
      · intro fr' frNd' hfr' hgfr'
        cases hfr'
        exact hget_setParent_self _ _ _ _ hgfr'
  | some p =>
    cases hok with
    | fromLeft P' gp _ k R rr _ hok' hgp hR =>
      -- the hole is the left child of `p`
      have hiP : p ∈ pathIds (Path.fromLeft p k R P') := by simp [pathIds]
      have hmemP : ∀ j, j ∈ pathIds P' → j ∈ pathIds (Path.fromLeft p k R P') :=
        fun j hj => List.mem_cons_of_mem _ (List.mem_append_right _ hj)
      have hmemR : ∀ j, j ∈ ids R → j ∈ pathIds (Path.fromLeft p k R P') :=
        fun j hj => List.mem_cons_of_mem _ (List.mem_append_left _ hj)
      have hin : p ≠ n := fun hh => hnP (hh ▸ hiP)
      have hndP' : p ∉ ids R ++ pathIds P' := (List.nodup_cons.mp (by
        simpa [pathIds] using hnd)).1
      have hiR : p ∉ ids R := fun hh => hndP' (List.mem_append_left _ hh)
      have hiP' : p ∉ pathIds P' := fun hh => hndP' (List.mem_append_right _ hh)
      cases fromRef with
      | none =>
        have hw : ∀ j, j ≠ p → hget (setLeft t.heap p none) j = hget t.heap j :=
          fun j hjp => hget_setLeft_ne _ p j _ hjp
        refine ⟨setLeft t.heap p none, t.root, ?_, ?_, ?_, ?_⟩
        · simp [BinarySearchTree.transplant, hgn, hgp]
        · refine .fromLeft P' gp p k R rr none ?_ ?_ ?_
          · exact hok'.congrP fun j hj => hw j (fun hh => hiP' (hh ▸ hj))
          · exact hget_setLeft_self _ _ _ _ hgp
          · exact hR.congr fun j hj => hw j (fun hh => hiR (hh ▸ hj))
        · intro j hjP _
          exact hw j (fun hh => hjP (hh ▸ hiP))
        · intro fr frNd hfr' _
          cases hfr'
      | some fr =>
        obtain ⟨hfrP, hfrn, frNd0, hgfr0⟩ := hfr fr rfl
        have hfri : fr ≠ p := fun hh => hfrP (hh ▸ hiP)
        have hw : ∀ j, j ≠ p → j ≠ fr →
            hget (setParent (setLeft t.heap p (some fr)) fr (some p)) j =
              hget t.heap j := by
          intro j hjp hjf
          rw [hget_setParent_ne _ fr j _ hjf, hget_setLeft_ne _ p j _ hjp]
        have hwp : hget (setParent (setLeft t.heap p (some fr)) fr (some p)) p =
            some ⟨k, gp, some fr, rr⟩ := by
          rw [hget_setParent_ne _ fr p _ (Ne.symm hfri)]
          exact hget_setLeft_self _ _ _ _ hgp
        refine ⟨setParent (setLeft t.heap p (some fr)) fr (some p), t.root, ?_, ?_, ?_, ?_⟩
        · have hre : hget (setLeft t.heap p (some fr)) n =
              some ⟨tk, some p, tl, trr⟩ := by
            rw [hget_setLeft_ne _ p n _ (Ne.symm hin)]
            exact hgn
          simp [BinarySearchTree.transplant, hgn, hgp, hre]
        · refine .fromLeft P' gp p k R rr (some fr) ?_ hwp ?_
          · exact hok'.congrP fun j hj =>
              hw j (fun hh => hiP' (hh ▸ hj)) (fun hh => hfrP (hh ▸ hmemP j hj))
          · exact hR.congr fun j hj =>
              hw j (fun hh => hiR (hh ▸ hj)) (fun hh => hfrP (hh ▸ hmemR j hj))
        · intro j hjP hjf
          exact hw j (fun hh => hjP (hh ▸ hiP)) (fun hh => hjf (by rw [hh]))
        · intro fr' frNd hfr' hgfr'
          have hfe : fr = fr' := by injection hfr'
          subst hfe
          refine hget_setParent_self _ _ _ _ ?_
          rw [hget_setLeft_ne _ p fr _ hfri]
          exact hgfr'
    | fromRight P' gp L _ k lr _ hok' hgp hL =>
      have hiP : p ∈ pathIds (Path.fromRight L p k P') := by simp [pathIds]
      have hmemP : ∀ j, j ∈ pathIds P' → j ∈ pathIds (Path.fromRight L p k P') :=
        fun j hj => List.mem_cons_of_mem _ (List.mem_append_right _ hj)
      have hmemL : ∀ j, j ∈ ids L → j ∈ pathIds (Path.fromRight L p k P') :=
        fun j hj => List.mem_cons_of_mem _ (List.mem_append_left _ hj)
      have hin : p ≠ n := fun hh => hnP (hh ▸ hiP)
      have hndP' : p ∉ ids L ++ pathIds P' := (List.nodup_cons.mp (by
        simpa [pathIds] using hnd)).1
      have hiL : p ∉ ids L := fun hh => hndP' (List.mem_append_left _ hh)
      have hiP' : p ∉ pathIds P' := fun hh => hndP' (List.mem_append_right _ hh)
      have hlrn : lr ≠ some n := by
        cases hLe : L with
        | leaf => subst hLe; rw [hL.leaf_ref]; exact fun hh => Option.noConfusion hh
        | node LL li lk LR =>
          subst hLe
          rw [hL.node_ref]
          intro hh
          have hlin : li = n := by injection hh
          have hliL : li ∈ ids (ITree.node LL li lk LR) := by simp
          exact hnP (hlin ▸ hmemL li hliL)
      cases fromRef with
      | none =>
        have hw : ∀ j, j ≠ p → hget (setRight t.heap p none) j = hget t.heap j :=
          fun j hjp => hget_setRight_ne _ p j _ hjp
        refine ⟨setRight t.heap p none, t.root, ?_, ?_, ?_, ?_⟩
        · simp [BinarySearchTree.transplant, hgn, hgp, hlrn]
        · refine .fromRight P' gp L p k lr none ?_ ?_ ?_
          · exact hok'.congrP fun j hj => hw j (fun hh => hiP' (hh ▸ hj))
          · exact hget_setRight_self _ _ _ _ hgp
          · exact hL.congr fun j hj => hw j (fun hh => hiL (hh ▸ hj))
        · intro j hjP _
          exact hw j (fun hh => hjP (hh ▸ hiP))
        · intro fr frNd hfr' _
          cases hfr'
      | some fr =>
        obtain ⟨hfrP, hfrn, frNd0, hgfr0⟩ := hfr fr rfl
        have hfri : fr ≠ p := fun hh => hfrP (hh ▸ hiP)
        have hw : ∀ j, j ≠ p → j ≠ fr →
            hget (setParent (setRight t.heap p (some fr)) fr (some p)) j =
              hget t.heap j := by
          intro j hjp hjf
          rw [hget_setParent_ne _ fr j _ hjf, hget_setRight_ne _ p j _ hjp]
        have hwp : hget (setParent (setRight t.heap p (some fr)) fr (some p)) p =
            some ⟨k, gp, lr, some fr⟩ := by
          rw [hget_setParent_ne _ fr p _ (Ne.symm hfri)]
          exact hget_setRight_self _ _ _ _ hgp
        refine ⟨setParent (setRight t.heap p (some fr)) fr (some p), t.root, ?_, ?_, ?_, ?_⟩
        · have hre : hget (setRight t.heap p (some fr)) n =
              some ⟨tk, some p, tl, trr⟩ := by
            rw [hget_setRight_ne _ p n _ (Ne.symm hin)]
            exact hgn
          simp [BinarySearchTree.transplant, hgn, hgp, hre, hlrn]
        · refine .fromRight P' gp L p k lr (some fr) ?_ hwp ?_
          · exact hok'.congrP fun j hj =>
              hw j (fun hh => hiP' (hh ▸ hj)) (fun hh => hfrP (hh ▸ hmemP j hj))
          · exact hL.congr fun j hj =>
              hw j (fun hh => hiL (hh ▸ hj)) (fun hh => hfrP (hh ▸ hmemL j hj))
        · intro j hjP hjf
          exact hw j (fun hh => hjP (hh ▸ hiP)) (fun hh => hjf (by rw [hh]))
        · intro fr' frNd hfr' hgfr'
          have hfe : fr = fr' := by injection hfr'
          subst hfe
          refine hget_setParent_self _ _ _ _ ?_
          rw [hget_setRight_ne _ p fr _ hfri]
          exact hgfr'

theorem nodup_plug_facts {P : Path} {S : ITree}
    (hnd : (ids (plugP P S)).Nodup) :
    (ids S).Nodup ∧ (pathIds P).Nodup ∧ (∀ j ∈ pathIds P, j ∉ ids S) := by
  rw [ids_plugP] at hnd
  have hperm : ((beforeA P).map (·.1) ++ ids S ++ (afterA P).map (·.1)) ~
      ids S ++ ((beforeA P).map (·.1) ++ (afterA P).map (·.1)) := by
    refine List.perm_iff_count.mpr (fun a => ?_)
    simp [List.count_append]
    ring
  have hnd2 : (ids S ++ ((beforeA P).map (·.1) ++ (afterA P).map (·.1))).Nodup :=
    hperm.nodup_iff.mp hnd
  refine ⟨hnd2.of_append_left, ?_, ?_⟩
  · exact (pathIds_perm P).nodup_iff.mpr hnd2.of_append_right
  · intro j hjP hjS
    have hj2 : j ∈ (beforeA P).map (·.1) ++ (afterA P).map (·.1) :=
      (pathIds_perm P).subset hjP
    exact (List.disjoint_of_nodup_append hnd2) hjS hj2

theorem inv_package {t : BinarySearchTree} {T T' : ITree} {h7 : Heap} {r : Option Nat}
    {n : Nat} {key : Int} (hi : Inv t T)
    (hrep : IsRepr h7 none r T') (hord : Ordered T')
    (hassoc : assoc T ~ (n, key) :: assoc T') :
    Inv ⟨h7, r, t._size - 1, t.nextId⟩ T' := by
  have hids : ids T ~ n :: ids T' := by
    have := hassoc.map (·.1)
    simpa [map_fst_assoc] using this
  refine ⟨hrep, ?_, hord, ?_, ?_⟩
  · exact (List.nodup_cons.mp (hids.nodup_iff.mp hi.nodup)).2
  · have hlen := hassoc.length_eq
    have hsz : sizeT T = sizeT T' + 1 := by
      simpa [length_assoc] using hlen
    simp only []
    rw [hi.size_eq, hsz]
    push_cast
    ring
  · intro j hj
    exact hi.bound j (hids.mem_iff.mpr (by simp [hj]))

theorem assoc_plug_perm {P : Path} {S S' : ITree} {n : Nat} {key : Int}
    (hsp : assoc S ~ (n, key) :: assoc S') :
    assoc (plugP P S) ~ (n, key) :: assoc (plugP P S') := by
  rw [assoc_plugP, assoc_plugP]
  refine List.perm_iff_count.mpr (fun a => ?_)
  have := List.perm_iff_count.mp hsp a
  simp [List.count_append, List.count_cons] at this ⊢
  omega

set_option maxHeartbeats 1000000

theorem delete_mem {t : BinarySearchTree} {T : ITree} {key : Int}
    (hi : Inv t T) (hk : key ∈ keysT T) :
    ∃ n T', t.search key = some n ∧ Inv (t.delete key) T' ∧
      assoc T ~ (n, key) :: assoc T' := by
  obtain ⟨n, hf, hmemA⟩ := findT_isSome_of_mem hi.ordered hk
  have hsearch : t.search key = some n := by rw [search_eq_findT hi]; exact hf
  obtain ⟨P, SL, SR, hp, hTeq, hok, hS⟩ := repr_decomp hi.repr hf
  obtain ⟨hndS, hndP, hdisjPS⟩ := nodup_plug_facts (hTeq ▸ hi.nodup)
  obtain ⟨hndSL, hndSR, hnSL, hnSR, hdisjLR⟩ := nodup_node_facts hndS
  have hnP : n ∉ pathIds P := fun hh => hdisjPS n hh (by simp)
  have hordP : Ordered (plugP P (ITree.node SL n key SR)) := hTeq ▸ hi.ordered
  have hdel : t.delete key = t.del (some n) := by
    rw [BinarySearchTree.delete, hsearch]
  cases hS with
  | node _ _ _ sl sr _ _ hgn hSL hSR =>
    cases hsl : sl with
    | none =>
      subst hsl
      have hSLleaf : SL = .leaf := hSL.eq_leaf
      subst hSLleaf
      have hfr : ∀ fr, sr = some fr → fr ∉ pathIds P ∧ fr ≠ n ∧
          ∃ frNd, hget t.heap fr = some frNd := by
        intro fr hfreq
        have hfrS : fr ∈ ids SR := by rw [hfreq] at hSR; exact hSR.root_mem
        exact ⟨fun hh => hdisjPS fr hh (by simp [hfrS]),
          fun hh => hnSR (hh ▸ hfrS), hSR.hget_mem fr hfrS⟩
      obtain ⟨h2, r2, heq, hok2, hcf, hdf⟩ :=
        transplant_hole sr hok hgn rfl hnP hndP hfr
      have hdel2 : t.del (some n) = ⟨h2, r2, t._size - 1, t.nextId⟩ := by
        simp only [BinarySearchTree.del, hgn, heq]
      have hrepSR : IsRepr h2 hp sr SR := by
        cases hsr2 : sr with
        | none =>
          have hleaf : SR = .leaf := by rw [hsr2] at hSR; exact hSR.eq_leaf
          rw [hleaf]
          exact .leaf _
        | some fr =>
          rw [hsr2] at hSR
          refine hSR.reparent_via hndSR ?_ ?_
          · exact fun frNd hg => hdf fr frNd hsr2 hg
          · intro j hj hjfr
            refine hcf j (fun hh => hdisjPS j hh (by simp [hj])) ?_
            rw [hsr2]
            exact fun hh => hjfr (Option.some.inj hh).symm
      have hrepT' : IsRepr h2 none r2 (plugP P SR) := hok2.plug hrepSR
      have hordT' : Ordered (plugP P SR) := by
        refine ordered_plug_sub hordP ?_
        rw [keysT_node, keysT_leaf, List.nil_append]
        exact List.sublist_cons_self key (keysT SR)
      have hsp : assoc (ITree.node .leaf n key SR) ~ (n, key) :: assoc SR := by
        simp
      refine ⟨n, plugP P SR, hsearch, ?_, ?_⟩
      · rw [hdel, hdel2]
        exact inv_package hi hrepT' hordT' (by rw [hTeq]; exact assoc_plug_perm hsp)
      · rw [hTeq]
        exact assoc_plug_perm hsp
    | some la =>
      cases hsr : sr with
      | none =>
        subst hsl
        subst hsr
        have hSRleaf : SR = .leaf := hSR.eq_leaf
        subst hSRleaf
        have hlaS : la ∈ ids SL := hSL.root_mem
        have hfr : ∀ fr, (some la : Option Nat) = some fr → fr ∉ pathIds P ∧ fr ≠ n ∧
            ∃ frNd, hget t.heap fr = some frNd := by
          intro fr hfreq
          have hfe : la = fr := Option.some.inj hfreq
          subst hfe
          exact ⟨fun hh => hdisjPS la hh (by simp [hlaS]),
            fun hh => hnSL (hh ▸ hlaS), hSL.hget_mem la hlaS⟩
        obtain ⟨h2, r2, heq, hok2, hcf, hdf⟩ :=
          transplant_hole (some la) hok hgn rfl hnP hndP hfr
        have hdel2 : t.del (some n) = ⟨h2, r2, t._size - 1, t.nextId⟩ := by
          simp only [BinarySearchTree.del, hgn, heq]
        have hrepSL : IsRepr h2 hp (some la) SL := by
          refine hSL.reparent_via hndSL ?_ ?_
          · exact fun frNd hg => hdf la frNd rfl hg
          · intro j hj hjfr
            refine hcf j (fun hh => hdisjPS j hh (by simp [hj])) ?_
            exact fun hh => hjfr (Option.some.inj hh).symm
        have hrepT' : IsRepr h2 none r2 (plugP P SL) := hok2.plug hrepSL
        have hordT' : Ordered (plugP P SL) := by
          refine ordered_plug_sub hordP ?_
          rw [keysT_node, keysT_leaf]
          exact List.sublist_append_left (keysT SL) (key :: [])
        have hsp : assoc (ITree.node SL n key .leaf) ~ (n, key) :: assoc SL := by
          rw [assoc_node, assoc_leaf]
          refine List.perm_iff_count.mpr (fun a => ?_)
          simp [List.count_append, List.count_cons]
        refine ⟨n, plugP P SL, hsearch, ?_, ?_⟩
        · rw [hdel, hdel2]
          exact inv_package hi hrepT' hordT' (by rw [hTeq]; exact assoc_plug_perm hsp)
        · rw [hTeq]
          exact assoc_plug_perm hsp
      | some ra =>
        subst hsl
        subst hsr
        cases hSR with
        | node _ _ _ rlr rrr _ _ hgra hSRL hSRR =>
        rename_i rk SRL SRR
        have hlaS : la ∈ ids SL := hSL.root_mem
        have hraS : ra ∈ ids (ITree.node SRL ra rk SRR) := by simp
        obtain ⟨hndSRL, hndSRR, hraSRL, hraSRR, hdisjRR⟩ := nodup_node_facts hndSR
        have hlara : la ≠ ra := fun hh => hdisjLR la hlaS (hh ▸ hraS)
        have hran : ra ≠ n := fun hh => hnSR (hh ▸ hraS)
        have hlan : la ≠ n := fun hh => hnSL (hh ▸ hlaS)
        cases hSRL0 : SRL with
        | leaf =>
          subst hSRL0
          have hrlr : rlr = none := hSRL.leaf_ref
          subst hrlr
          have hmin : minAux (t.heap.length + 1) t.heap (some ra) = some ra := by
            simp [minAux, hgra]
          have hfrRA : ∀ fr, (some ra : Option Nat) = some fr → fr ∉ pathIds P ∧
              fr ≠ n ∧ ∃ frNd, hget t.heap fr = some frNd := by
            intro fr hfreq
            have hfe : ra = fr := Option.some.inj hfreq
            subst hfe
            exact ⟨fun hh => hdisjPS ra hh (by simp), hran, ⟨_, hgra⟩⟩
          obtain ⟨h2, r2, heq, hok2, hcf, hdf⟩ :=
            transplant_hole (some ra) hok hgn rfl hnP hndP hfrRA
          have hga2 : hget h2 ra = some ⟨rk, hp, none, rrr⟩ := by
            have := hdf ra ⟨rk, some n, none, rrr⟩ rfl hgra
            simpa using this
          have hren : hget h2 n = some ⟨key, hp, some la, some ra⟩ := by
            rw [hcf n hnP (fun hh => hran (Option.some.inj hh))]
            exact hgn
          have hdel2 : t.del (some n) =
              ⟨setParent (setLeft h2 ra (some la)) la (some ra), r2,
                t._size - 1, t.nextId⟩ := by
            simp only [BinarySearchTree.del, hgn, hmin, ne_eq, not_true_eq_false,
              if_false, heq, hren]
          -- the new subtree at the hole
          have hga3 : hget (setLeft h2 ra (some la)) ra = some ⟨rk, hp, some la, rrr⟩ := by
            rw [hget_setLeft_self _ _ _ _ hga2]
          have hga4 : hget (setParent (setLeft h2 ra (some la)) la (some ra)) ra =
              some ⟨rk, hp, some la, rrr⟩ := by
            rw [hget_setParent_ne _ la ra _ (Ne.symm hlara)]
            exact hga3
          have hrepSL4 : IsRepr (setParent (setLeft h2 ra (some la)) la (some ra))
              (some ra) (some la) SL := by
            refine hSL.reparent_via hndSL ?_ ?_
            · intro frNd hg
              rw [hget_setParent_self _ _ _ _ ?_]
              rw [hget_setLeft_ne _ ra la _ hlara,
                hcf la (fun hh => hdisjPS la hh (by simp [hlaS]))
                  (fun hh => hlara (Option.some.inj hh).symm)]
              exact hg
            · intro j hj hjla
              have hjra : j ≠ ra := fun hh => hdisjLR j hj (hh ▸ hraS)
              rw [hget_setParent_ne _ la j _ hjla, hget_setLeft_ne _ ra j _ hjra,
                hcf j (fun hh => hdisjPS j hh (by simp [hj]))
                  (fun hh => hjra (Option.some.inj hh).symm)]
          have hrepSRR4 : IsRepr (setParent (setLeft h2 ra (some la)) la (some ra))
              (some ra) rrr SRR := by
            refine hSRR.congr ?_
            intro j hj
            have hjSR : j ∈ ids (ITree.node ITree.leaf ra rk SRR) := by simp [hj]
            have hjra : j ≠ ra := fun hh => hraSRR (hh ▸ hj)
            have hjla : j ≠ la := fun hh => hdisjLR la hlaS (hh ▸ hjSR)
            rw [hget_setParent_ne _ la j _ hjla, hget_setLeft_ne _ ra j _ hjra,
              hcf j (fun hh => hdisjPS j hh (by simp [hj]))
                (fun hh => hjra (Option.some.inj hh).symm)]
          have hrepS' : IsRepr (setParent (setLeft h2 ra (some la)) la (some ra))
              hp (some ra) (.node SL ra rk SRR) :=
            .node hp ra rk (some la) rrr SL SRR hga4 hrepSL4 hrepSRR4
          have hok4 : PathOk (setParent (setLeft h2 ra (some la)) la (some ra))
              none r2 P hp (some ra) := by
            refine hok2.congrP ?_
            intro j hj
            have hjra : j ≠ ra := fun hh => hdisjPS j hj (by simp [hh])
            have hjla : j ≠ la := fun hh => hdisjPS j hj (by simp [hh, hlaS])
            rw [hget_setParent_ne _ la j _ hjla, hget_setLeft_ne _ ra j _ hjra]
          have hrepT' : IsRepr (setParent (setLeft h2 ra (some la)) la (some ra))
              none r2 (plugP P (.node SL ra rk SRR)) := hok4.plug hrepS'
          have hordT' : Ordered (plugP P (.node SL ra rk SRR)) := by
            refine ordered_plug_sub hordP ?_
            rw [keysT_node, keysT_node, keysT_node, keysT_leaf, List.nil_append]
            exact List.Sublist.append_left (List.sublist_cons_self key _) (keysT SL)
          have hsp : assoc (ITree.node SL n key (ITree.node ITree.leaf ra rk SRR)) ~
              (n, key) :: assoc (ITree.node SL ra rk SRR) := by
            refine List.perm_iff_count.mpr (fun a => ?_)
            simp [List.count_append, List.count_cons]
            omega
          refine ⟨n, plugP P (.node SL ra rk SRR), hsearch, ?_, ?_⟩
          · rw [hdel, hdel2]
            exact inv_package hi hrepT' hordT'
              (by rw [hTeq]; exact assoc_plug_perm hsp)
          · rw [hTeq]
            exact assoc_plug_perm hsp
        | node SRLL srli srlk SRLR =>
          subst hSRL0
          have hSRLne : ITree.node SRLL srli srlk SRLR ≠ .leaf :=
            fun hh => ITree.noConfusion hh
          obtain ⟨s, sk, sp, spnd, srr, WL', hdm, hgs, hgsp, hspl, hsWL, hspW,
            hsrrW, hssp, hxss, hrepDm⟩ :=
            delMin_sim hSRLne hgra hSRL hSRR hndSR
          -- shorthand for the right subtree and its delMin result
          have hdmSR : delMin (ITree.node (ITree.node SRLL srli srlk SRLR) ra rk SRR) =
              some (s, sk, .node WL' ra rk SRR) := by
            rw [delMin, hdm]
          have haSR := delMin_assoc hdmSR
          have hidsSR : ids (ITree.node (ITree.node SRLL srli srlk SRLR) ra rk SRR) =
              s :: ids (ITree.node WL' ra rk SRR) := by
            rw [← map_fst_assoc, haSR, ← map_fst_assoc]
            rfl
          have hsSR : s ∈ ids (ITree.node (ITree.node SRLL srli srlk SRLR) ra rk SRR) :=
            List.mem_append_left _ hsWL
          have hsW' : s ∉ ids (ITree.node WL' ra rk SRR) := by
            have := hidsSR ▸ hndSR
            exact (List.nodup_cons.mp this).1
          have hndW' : (ids (ITree.node WL' ra rk SRR)).Nodup := by
            have := hidsSR ▸ hndSR
            exact (List.nodup_cons.mp this).2
          have hsS : s ∈ ids (ITree.node SL n key
              (ITree.node (ITree.node SRLL srli srlk SRLR) ra rk SRR)) :=
            List.mem_append_right _ (List.mem_cons_of_mem _ hsSR)
          have hspS : sp ∈ ids (ITree.node SL n key
              (ITree.node (ITree.node SRLL srli srlk SRLR) ra rk SRR)) :=
            List.mem_append_right _ (List.mem_cons_of_mem _ hspW)
          have hsn : s ≠ n := fun hh => hnSR (hh ▸ hsSR)
          have hspn : sp ≠ n := fun hh => hnSR (hh ▸ hspW)
          have hsla : s ≠ la := fun hh => hdisjLR la hlaS ((hh ▸ hsSR))
          have hsra : s ≠ ra := fun hh => hraSRL (hh ▸ hsWL)
          have hspla : sp ≠ la := fun hh => hdisjLR la hlaS ((hh ▸ hspW))
          have hsP : s ∉ pathIds P := fun hh => hdisjPS s hh hsS
          have hspP : sp ∉ pathIds P := fun hh => hdisjPS sp hh hspS
          have hxfacts : ∀ x, srr = some x → x ∈ ids (ITree.node
              (ITree.node SRLL srli srlk SRLR) ra rk SRR) ∧ x ≠ n ∧ x ≠ la ∧
              x ∉ pathIds P := by
            intro x hx
            have hxSR : x ∈ ids (ITree.node (ITree.node SRLL srli srlk SRLR) ra rk SRR) :=
              List.mem_append_left _ (hsrrW x hx)
            exact ⟨hxSR, fun hh => hnSR (hh ▸ hxSR),
              fun hh => hdisjLR la hlaS (hh ▸ hxSR),
              fun hh => hdisjPS x hh
                (List.mem_append_right _ (List.mem_cons_of_mem _ hxSR))⟩
          -- fuel bound for the inner min
          have hszT : sizeT T ≤ t.heap.length := sizeT_le_length hi.repr hi.nodup
          have hfuelSR : heightT (ITree.node (ITree.node SRLL srli srlk SRLR) ra rk SRR) <
              t.heap.length + 1 := by
            have h1 : assoc T = beforeA P ++ assoc (ITree.node SL n key
                (ITree.node (ITree.node SRLL srli srlk SRLR) ra rk SRR)) ++ afterA P := by
              rw [hTeq, assoc_plugP]
            have h2 := congrArg List.length h1
            simp [length_assoc] at h2
            have h3 := heightT_le_sizeT (ITree.node (ITree.node SRLL srli srlk SRLR) ra rk SRR)
            simp [length_assoc] at h3 ⊢
            omega
          have hrepSR : IsRepr t.heap (some n) (some ra)
              (ITree.node (ITree.node SRLL srli srlk SRLR) ra rk SRR) :=
            .node (some n) ra rk rlr rrr _ _ hgra hSRL hSRR
          obtain ⟨s0, sk0, hhead, hmin0⟩ := minAux_head hrepSR hfuelSR
          rw [haSR] at hhead
          simp at hhead
          have hmin : minAux (t.heap.length + 1) t.heap (some ra) = some s := by
            rw [hmin0, hhead.1]
          -- the inner transplant produced by the source
          have hta : t.transplant srr (some s) =
              ⟨delMinHeap t.heap sp srr, t.root, t._size, t.nextId⟩ := by
            cases srr with
            | none =>
              simp [BinarySearchTree.transplant, hgs, hgsp, hspl, delMinHeap]
            | some x =>
              have hre : hget (setLeft t.heap sp (some x)) s =
                  some ⟨sk, some sp, none, some x⟩ := by
                rw [hget_setLeft_ne _ sp s _ hssp]
                exact hgs
              simp [BinarySearchTree.transplant, hgs, hgsp, hspl, hre, delMinHeap]
          have hw2 : ∀ j, j ≠ sp → (∀ x, srr = some x → j ≠ x) →
              hget (delMinHeap t.heap sp srr) j = hget t.heap j :=
            fun j h1 h2 => hget_delMinHeap_other t.heap sp srr j h1 h2
          have hgs2 : hget (delMinHeap t.heap sp srr) s =
              some ⟨sk, some sp, none, srr⟩ := by
            rw [hw2 s hssp (fun x hx => Ne.symm (hxss x hx).1)]
            exact hgs
          have hgn2 : hget (delMinHeap t.heap sp srr) n =
              some ⟨key, hp, some la, some ra⟩ := by
            rw [hw2 n (Ne.symm hspn) (fun x hx => Ne.symm (hxfacts x hx).2.1)]
            exact hgn
          have hraSmem : ra ∈ ids (ITree.node SL n key
              (ITree.node (ITree.node SRLL srli srlk SRLR) ra rk SRR)) :=
            List.mem_append_right _ (List.mem_cons_of_mem _ hraS)
          have hlaSmem : la ∈ ids (ITree.node SL n key
              (ITree.node (ITree.node SRLL srli srlk SRLR) ra rk SRR)) :=
            List.mem_append_left _ hlaS
          have hraP : ra ∉ pathIds P := fun hh => hdisjPS ra hh hraSmem
          have hlaP : la ∉ pathIds P := fun hh => hdisjPS la hh hlaSmem
          have hras : ra ≠ s := Ne.symm hsra
          have hgs3 : hget (setRight (delMinHeap t.heap sp srr) s (some ra)) s =
              some ⟨sk, some sp, none, some ra⟩ := by
            rw [hget_setRight_self _ _ _ _ hgs2]
          have hgs4 : hget (setParent (setRight (delMinHeap t.heap sp srr) s
              (some ra)) ra (some s)) s = some ⟨sk, some sp, none, some ra⟩ := by
            rw [hget_setParent_ne _ ra s _ hsra]
            exact hgs3
          have hgn4 : hget (setParent (setRight (delMinHeap t.heap sp srr) s
              (some ra)) ra (some s)) n = some ⟨key, hp, some la, some ra⟩ := by
            rw [hget_setParent_ne _ ra n _ (Ne.symm hran),
              hget_setRight_ne _ s n _ (Ne.symm hsn)]
            exact hgn2
          have hrepW3 : IsRepr (setRight (delMinHeap t.heap sp srr) s (some ra))
              (some n) (some ra) (.node WL' ra rk SRR) := by
            refine hrepDm.congr ?_
            intro j hj
            exact hget_setRight_ne _ s j _ (fun hh => hsW' (hh ▸ hj))
          have hrepW4 : IsRepr (setParent (setRight (delMinHeap t.heap sp srr) s
              (some ra)) ra (some s)) (some s) (some ra) (.node WL' ra rk SRR) :=
            hrepW3.reparent hndW'
          have hok4 : PathOk (setParent (setRight (delMinHeap t.heap sp srr) s
              (some ra)) ra (some s)) none t.root P hp (some n) := by
            refine hok.congrP ?_
            intro j hj
            have hjsp : j ≠ sp := fun hh => hspP (hh ▸ hj)
            have hjs : j ≠ s := fun hh => hsP (hh ▸ hj)
            have hjra : j ≠ ra := fun hh => hraP (hh ▸ hj)
            rw [hget_setParent_ne _ ra j _ hjra, hget_setRight_ne _ s j _ hjs,
              hw2 j hjsp (fun x hx hh => (hxfacts x hx).2.2.2 (hh ▸ hj))]
          have hfrS : ∀ fr, (some s : Option Nat) = some fr → fr ∉ pathIds P ∧
              fr ≠ n ∧ ∃ frNd,
                hget (setParent (setRight (delMinHeap t.heap sp srr) s (some ra))
                  ra (some s)) fr = some frNd := by
            intro fr hfreq
            have hfe : s = fr := Option.some.inj hfreq
            subst hfe
            exact ⟨hsP, hsn, ⟨_, hgs4⟩⟩
          obtain ⟨h5, r5, heq5, hok5, hcf5, hdf5⟩ :=
            @transplant_hole ⟨setParent (setRight (delMinHeap t.heap sp srr) s
              (some ra)) ra (some s), t.root, t._size, t.nextId⟩ P hp n
              ⟨key, hp, some la, some ra⟩ (some s) hok4 hgn4 rfl hnP hndP hfrS
          have hgn5 : hget h5 n = some ⟨key, hp, some la, some ra⟩ := by
            rw [hcf5 n hnP (fun hh => hsn (Option.some.inj hh))]
            exact hgn4
          have hgs5 : hget h5 s = some ⟨sk, hp, none, some ra⟩ := by
            have := hdf5 s ⟨sk, some sp, none, some ra⟩ rfl hgs4
            simpa using this
          have hdel2 : t.del (some n) =
              ⟨setParent (setLeft h5 s (some la)) la (some s), r5,
                t._size - 1, t.nextId⟩ := by
            simp only [BinarySearchTree.del, hgn, hmin, ne_eq, hras,
              not_false_eq_true, if_true, hgs, hta, hgn2, heq5, hgn5]
          -- records and representations in the final store
          have hgs7 : hget (setParent (setLeft h5 s (some la)) la (some s)) s =
              some ⟨sk, hp, some la, some ra⟩ := by
            rw [hget_setParent_ne _ la s _ hsla]
            rw [hget_setLeft_self _ _ _ _ hgs5]
          have hrepW7 : IsRepr (setParent (setLeft h5 s (some la)) la (some s))
              (some s) (some ra) (.node WL' ra rk SRR) := by
            refine hrepW4.congr ?_
            intro j hj
            have hjs : j ≠ s := fun hh => hsW' (hh ▸ hj)
            have hjla : j ≠ la := fun hh => by
              have hjSR : j ∈ ids (ITree.node (ITree.node SRLL srli srlk SRLR)
                  ra rk SRR) := by
                rw [hidsSR]
                exact List.mem_cons_of_mem _ hj
              exact hdisjLR la hlaS (hh ▸ hjSR)
            have hjP : j ∉ pathIds P := fun hhp => by
              have hjSR : j ∈ ids (ITree.node (ITree.node SRLL srli srlk SRLR)
                  ra rk SRR) := by
                rw [hidsSR]
                exact List.mem_cons_of_mem _ hj
              exact hdisjPS j hhp
                (List.mem_append_right _ (List.mem_cons_of_mem _ hjSR))
            rw [hget_setParent_ne _ la j _ hjla, hget_setLeft_ne _ s j _ hjs,
              hcf5 j hjP (fun hh => hjs (Option.some.inj hh).symm)]
          have hrepSL7 : IsRepr (setParent (setLeft h5 s (some la)) la (some s))
              (some s) (some la) SL := by
            refine hSL.reparent_via hndSL ?_ ?_
            · intro frNd hg
              rw [hget_setParent_self _ _ _ _ ?_]
              rw [hget_setLeft_ne _ s la _ (Ne.symm hsla),
                hcf5 la hlaP (fun hh => hsla (Option.some.inj hh)),
                hget_setParent_ne _ ra la _ hlara,
                hget_setRight_ne _ s la _ (Ne.symm hsla),
                hw2 la (Ne.symm hspla) (fun x hx hh => (hxfacts x hx).2.2.1 hh.symm)]
              exact hg
            · intro j hj hjla
              have hjS : j ∈ ids (ITree.node SL n key
                  (ITree.node (ITree.node SRLL srli srlk SRLR) ra rk SRR)) :=
                List.mem_append_left _ hj
              have hjP : j ∉ pathIds P := fun hhp => hdisjPS j hhp hjS
              have hjs : j ≠ s := fun hh => hdisjLR j hj (hh ▸ hsSR)
              have hjra : j ≠ ra := fun hh => hdisjLR j hj (hh ▸ hraS)
              have hjsp : j ≠ sp := fun hh => hdisjLR j hj (hh ▸ hspW)
              rw [hget_setParent_ne _ la j _ hjla, hget_setLeft_ne _ s j _ hjs,
                hcf5 j hjP (fun hh => hjs (Option.some.inj hh).symm),
                hget_setParent_ne _ ra j _ hjra, hget_setRight_ne _ s j _ hjs,
                hw2 j hjsp (fun x hx hh => hdisjLR j hj (hh ▸ (List.mem_append_left _
                  (hsrrW x hx))))]
          have hrepS7 : IsRepr (setParent (setLeft h5 s (some la)) la (some s))
              hp (some s) (.node SL s sk (.node WL' ra rk SRR)) :=
            .node hp s sk (some la) (some ra) SL (.node WL' ra rk SRR)
              hgs7 hrepSL7 hrepW7
          have hok7 : PathOk (setParent (setLeft h5 s (some la)) la (some s))
              none r5 P hp (some s) := by
            refine hok5.congrP ?_
            intro j hj
            have hjla : j ≠ la := fun hh => hlaP (hh ▸ hj)
            have hjs : j ≠ s := fun hh => hsP (hh ▸ hj)
            rw [hget_setParent_ne _ la j _ hjla, hget_setLeft_ne _ s j _ hjs]
          have hrepT' : IsRepr (setParent (setLeft h5 s (some la)) la (some s))
              none r5 (plugP P (.node SL s sk (.node WL' ra rk SRR))) :=
            hok7.plug hrepS7
          have hkeysSR : keysT (ITree.node (ITree.node SRLL srli srlk SRLR) ra rk SRR) =
              sk :: keysT (ITree.node WL' ra rk SRR) := by
            unfold keysT
            rw [haSR]
            rfl
          have hordT' : Ordered (plugP P (.node SL s sk (.node WL' ra rk SRR))) := by
            refine ordered_plug_sub hordP ?_
            have e1 : keysT (ITree.node SL s sk (ITree.node WL' ra rk SRR)) =
                keysT SL ++ sk :: keysT (ITree.node WL' ra rk SRR) :=
              keysT_node _ _ _ _
            have e2 : keysT (ITree.node SL n key
                (ITree.node (ITree.node SRLL srli srlk SRLR) ra rk SRR)) =
                keysT SL ++ key :: (sk :: keysT (ITree.node WL' ra rk SRR)) := by
              rw [keysT_node, hkeysSR]
            rw [e1, e2]
            exact List.Sublist.append_left (List.sublist_cons_self key _) (keysT SL)
          have hsp2 : assoc (ITree.node SL n key
              (ITree.node (ITree.node SRLL srli srlk SRLR) ra rk SRR)) ~
              (n, key) :: assoc (ITree.node SL s sk (.node WL' ra rk SRR)) := by
            have e1 : assoc (ITree.node SL n key
                (ITree.node (ITree.node SRLL srli srlk SRLR) ra rk SRR)) =
                assoc SL ++ (n, key) :: ((s, sk) ::
                  assoc (ITree.node WL' ra rk SRR)) := by
              rw [assoc_node, haSR]
            have e2 : assoc (ITree.node SL s sk (ITree.node WL' ra rk SRR)) =
                assoc SL ++ (s, sk) :: assoc (ITree.node WL' ra rk SRR) :=
              assoc_node _ _ _ _
            rw [e1, e2]
            exact @List.perm_middle _ (n, key) (assoc SL)
              ((s, sk) :: assoc (ITree.node WL' ra rk SRR))
          refine ⟨n, plugP P (.node SL s sk (.node WL' ra rk SRR)), hsearch, ?_, ?_⟩
          · rw [hdel, hdel2]
            exact inv_package hi hrepT' hordT'
              (by rw [hTeq]; exact assoc_plug_perm hsp2)
          · rw [hTeq]
            exact assoc_plug_perm hsp2

/-! ### Operation sequences -/

/-- One mutating operation of the public interface. -/
inductive Op where
  | ins : Int → Op
  | del : Int → Op

/-- Apply one operation.  A duplicate `insert` throws in the source; the state
it leaves behind is the unchanged tree, which is what the pair's first
component records. -/
def applyOp (t : BinarySearchTree) : Op → BinarySearchTree
  | .ins k => (t.insert k).1
  | .del k => t.delete k

/-- Apply a sequence of operations from left to right. -/
def applyOps (t : BinarySearchTree) (ops : List Op) : BinarySearchTree :=
  ops.foldl applyOp t

theorem inv_empty : Inv emptyTree .leaf := by
  refine ⟨.leaf _, by simp, trivial, rfl, by simp⟩

theorem applyOp_inv {t : BinarySearchTree} {T : ITree} (hi : Inv t T) (op : Op) :
    ∃ T', Inv (applyOp t op) T' := by
  cases op with
  | ins k =>
    by_cases hk : k ∈ keysT T
    · rw [applyOp, insert_dup hi hk]
      exact ⟨T, hi⟩
    · obtain ⟨t', heq, hinv, -, -⟩ := insert_ok hi hk
      rw [applyOp, heq]
      exact ⟨_, hinv⟩
  | del k =>
    by_cases hk : k ∈ keysT T
    · obtain ⟨n, T', -, hinv, -⟩ := delete_mem hi hk
      exact ⟨T', hinv⟩
    · rw [applyOp, delete_not_mem hi hk]
      exact ⟨T, hi⟩

theorem applyOps_inv (ops : List Op) :
    ∀ {t : BinarySearchTree} {T : ITree}, Inv t T →
      ∃ T', Inv (applyOps t ops) T' := by
  induction ops with
  | nil => intro t T hi; exact ⟨T, hi⟩
  | cons op ops ih =>
    intro t T hi
    obtain ⟨T1, h1⟩ := applyOp_inv hi op
    exact ih h1

/-- Every state reached from the empty tree is well-formed. -/
theorem applyOps_empty_inv (ops : List Op) :
    ∃ T, Inv (applyOps emptyTree ops) T :=
  applyOps_inv ops inv_empty

/-! ### Reachable-node count, parent consistency, in-order traversal -/

/-- Count the nodes reachable from a reference (used to state the size
claims; fuel-based like the traversals). -/
def countNodes : Nat → Heap → Option Nat → Nat
  | 0, _, _ => 0
  | _ + 1, _, none => 0
  | fuel + 1, h, some i =>
    match hget h i with
    | none => 0
    | some nd => countNodes fuel h nd.left + countNodes fuel h nd.right + 1

theorem countNodes_eq {T : ITree} :
    ∀ {h : Heap} {p r : Option Nat} {fuel : Nat},
      IsRepr h p r T → heightT T < fuel → countNodes fuel h r = sizeT T := by
  induction T with
  | leaf =>
    intro h p r fuel hr hfuel
    cases hr
    cases fuel with
    | zero => omega
    | succ f => rfl
  | node L i k R ihL ihR =>
    intro h p r fuel hr hfuel
    cases hr with
    | node _ _ _ l r' _ _ hg hl hrr =>
      cases fuel with
      | zero => simp [heightT] at hfuel
      | succ f =>
        have hfl : heightT L < f := by simp [heightT] at hfuel; omega
        have hfr : heightT R < f := by simp [heightT] at hfuel; omega
        simp only [countNodes, hg]
        rw [ihL hl hfl, ihR hrr hfr, sizeT_node]

/-- Decide that the `parent` pointer of every reachable node designates its
structural parent (the root's being the given `par`). -/
def parentsOk : Nat → Heap → Option Nat → Option Nat → Bool
  | 0, _, _, _ => true
  | _ + 1, _, _, none => true
  | fuel + 1, h, par, some i =>
    match hget h i with
    | none => false
    | some nd =>
      decide (nd.parent = par) && parentsOk fuel h (some i) nd.left &&
        parentsOk fuel h (some i) nd.right

theorem parentsOk_eq {T : ITree} :
    ∀ {h : Heap} {par r : Option Nat} {fuel : Nat},
      IsRepr h par r T → heightT T < fuel → parentsOk fuel h par r = true := by
  induction T with
  | leaf =>
    intro h par r fuel hr hfuel
    cases hr
    cases fuel with
    | zero => omega
    | succ f => rfl
  | node L i k R ihL ihR =>
    intro h par r fuel hr hfuel
    cases hr with
    | node _ _ _ l r' _ _ hg hl hrr =>
      cases fuel with
      | zero => simp [heightT] at hfuel
      | succ f =>
        have hfl : heightT L < f := by simp [heightT] at hfuel; omega
        have hfr : heightT R < f := by simp [heightT] at hfuel; omega
        simp only [parentsOk, hg, ihL hl hfl, ihR hrr hfr, decide_eq_true_eq,
          Bool.and_true]

/-- The source's in-order traversal lists exactly the represented tree's
nodes in in-order. -/
theorem inOrderAux_eq {T : ITree} :
    ∀ {h : Heap} {p r : Option Nat} {fuel : Nat} {arr : List Nat},
      IsRepr h p r T → heightT T < fuel →
      inOrderAux fuel h arr r = arr ++ ids T := by
  induction T with
  | leaf =>
    intro h p r fuel arr hr hfuel
    cases hr
    cases fuel with
    | zero => omega
    | succ f => simp [inOrderAux]
  | node L i k R ihL ihR =>
    intro h p r fuel arr hr hfuel
    cases hr with
    | node _ _ _ l r' _ _ hg hl hrr =>
      cases fuel with
      | zero => simp [heightT] at hfuel
      | succ f =>
        have hfl : heightT L < f := by simp [heightT] at hfuel; omega
        have hfr : heightT R < f := by simp [heightT] at hfuel; omega
        simp only [inOrderAux, hg]
        by_cases hlf : l = none ∧ r' = none
        · rw [if_pos hlf]
          obtain ⟨hl0, hr0⟩ := hlf
          subst hl0; subst hr0
          have : L = .leaf := hl.eq_leaf
          subst this
          have : R = .leaf := hrr.eq_leaf
          subst this
          simp
        · rw [if_neg hlf]
          rw [ihL hl hfl, ihR hrr hfr]
          simp

/-- Keys of represented nodes, read through the store. -/
theorem ids_map_key {T : ITree} :
    ∀ {h : Heap} {p r : Option Nat},
      IsRepr h p r T →
      (ids T).map (fun i => match hget h i with
        | some nd => nd.key
        | none => 0) = keysT T := by
  induction T with
  | leaf => intro h p r hr; rfl
  | node L i k R ihL ihR =>
    intro h p r hr
    cases hr with
    | node _ _ _ l r' _ _ hg hl hrr =>
      simp only [ids_node, keysT_node, List.map_append, List.map_cons]
      rw [ihL hl, ihR hrr, hg]

/-- Every pair of the in-order association list is realised by a store
record with that key. -/
theorem assoc_record {T : ITree} :
    ∀ {h : Heap} {p r : Option Nat} {i : Nat} {k : Int},
      IsRepr h p r T → (i, k) ∈ assoc T →
      ∃ nd, hget h i = some nd ∧ nd.key = k := by
  induction T with
  | leaf => intro h p r i k hr hmem; simp at hmem
  | node L j k0 R ihL ihR =>
    intro h p r i k hr hmem
    cases hr with
    | node _ _ _ l r' _ _ hg hl hrr =>
      simp at hmem
      rcases hmem with hmem | ⟨hi, hk⟩ | hmem
      · exact ihL hl hmem
      · subst hi; subst hk
        exact ⟨_, hg, rfl⟩
      · exact ihR hrr hmem


/-! ### Characterising `checkInvariant` -/

/-- Key at the root of a tree, if any. -/
def rootKey : ITree → Option Int
  | .leaf => none
  | .node _ _ k _ => some k

/-- The local (per-edge, non-strict) comparisons that `checkInvariant`
actually tests: no left child's key exceeds its parent's, no right child's
key is below its parent's. -/
def localOk : ITree → Bool
  | .leaf => true
  | .node L _ k R =>
    (match rootKey L with
     | some lk => !decide (lk > k)
     | none => true) &&
    ((match rootKey R with
      | some rk => !decide (rk < k)
      | none => true) &&
     (localOk L && localOk R))

theorem rootKey_mem {T : ITree} {k : Int} (h : rootKey T = some k) :
    k ∈ keysT T := by
  cases T with
  | leaf => simp [rootKey] at h
  | node L i k0 R =>
    simp [rootKey] at h
    subst h
    simp

theorem localOk_of_ordered {T : ITree} (h : Ordered T) : localOk T = true := by
  induction T with
  | leaf => rfl
  | node L i k R ihL ihR =>
    obtain ⟨hL, hR, hlt, hgt⟩ := h
    rw [localOk]
    have h1 : (match rootKey L with
        | some lk => !decide (lk > k)
        | none => true) = true := by
      cases hrk : rootKey L with
      | none => rfl
      | some lk =>
        have := hlt lk (rootKey_mem hrk)
        simp
        omega
    have h2 : (match rootKey R with
        | some rk => !decide (rk < k)
        | none => true) = true := by
      cases hrk : rootKey R with
      | none => rfl
      | some rk =>
        have := hgt rk (rootKey_mem hrk)
        simp
        omega
    rw [h1, h2, ihL hL, ihR hR]
    rfl

theorem localOk_node_iff {L R : ITree} {i : Nat} {k : Int} :
    localOk (.node L i k R) = true ↔
      ((∀ a, rootKey L = some a → ¬ a > k) ∧
       (∀ b, rootKey R = some b → ¬ b < k) ∧
       localOk L = true ∧ localOk R = true) := by
  rw [localOk]
  cases hL : rootKey L <;> cases hR : rootKey R <;>
    simp [hL, hR, and_assoc]

/-- Identities of a list of trees. -/
def idsAll : List ITree → List Nat
  | [] => []
  | T :: Ts => ids T ++ idsAll Ts

/-- Total node count of a list of trees. -/
def totalSize : List ITree → Nat
  | [] => 0
  | T :: Ts => sizeT T + totalSize Ts

theorem nodup_shift {A B C D : List Nat} {i : Nat}
    (h : (A ++ (B ++ i :: (C ++ D))).Nodup) :
    i ∉ A ∧ ((i :: A) ++ (C ++ (B ++ D))).Nodup := by
  have hswap : B ++ (C ++ D) ~ C ++ (B ++ D) := by
    calc B ++ (C ++ D) = (B ++ C) ++ D := (List.append_assoc B C D).symm
      _ ~ (C ++ B) ++ D := List.perm_append_comm.append_right D
      _ = C ++ (B ++ D) := List.append_assoc C B D
  have hperm : (A ++ (B ++ i :: (C ++ D))) ~ ((i :: A) ++ (C ++ (B ++ D))) := by
    calc A ++ (B ++ i :: (C ++ D))
        ~ A ++ (i :: (B ++ (C ++ D))) := List.Perm.append_left A List.perm_middle
      _ ~ i :: (A ++ (B ++ (C ++ D))) := List.perm_middle
      _ ~ i :: (A ++ (C ++ (B ++ D))) := List.Perm.cons i (List.Perm.append_left A hswap)
  have hnd' := hperm.nodup h
  refine ⟨?_, hnd'⟩
  intro hiA
  rw [List.cons_append, List.nodup_cons] at hnd'
  exact hnd'.1 (List.mem_append_left _ hiA)

theorem checkInvariantAux_iff (N : Nat) :
    ∀ (Ts : List ITree) (stack : List Nat) (fuel : Nat) (h : Heap)
      (visited : List Nat),
      totalSize Ts ≤ N →
      List.Forall₂ (fun i T => ∃ p, IsRepr h p (some i) T) stack Ts →
      (visited ++ idsAll Ts).Nodup →
      totalSize Ts + 1 ≤ fuel →
      (checkInvariantAux fuel h stack visited = true ↔
        ∀ T ∈ Ts, localOk T = true) := by
  induction N with
  | zero =>
    intro Ts stack fuel h visited hN hf2 hnd hfuel
    cases hf2 with
    | nil =>
      cases fuel with
      | zero => omega
      | succ f => simp [checkInvariantAux]
    | cons hR hf2' =>
      obtain ⟨p, hrep⟩ := hR
      obtain ⟨k, l, r, L, R, rfl, -, -, -⟩ := hrep.node_inv
      simp [totalSize] at hN
  | succ N ih =>
    intro Ts stack fuel h visited hN hf2 hnd hfuel
    cases hf2 with
    | nil =>
      cases fuel with
      | zero => simp [totalSize] at hfuel
      | succ f => simp [checkInvariantAux]
    | cons hR hf2' =>
      rename_i i T rest Ts'
      obtain ⟨p, hrep⟩ := hR
      obtain ⟨k, l, r, L, R, rfl, hg, hl, hr⟩ := hrep.node_inv
      cases fuel with
      | zero => simp [totalSize] at hfuel
      | succ f =>
      simp only [totalSize, sizeT_node] at hN hfuel
      have hnd0 : (visited ++ (ids L ++ i :: (ids R ++ idsAll Ts'))).Nodup := by
        simpa [idsAll, List.append_assoc] using hnd
      obtain ⟨hivis, hnd1⟩ :=
        nodup_shift (B := ids L) (C := ids R) (D := idsAll Ts') hnd0
      cases L with
      | node LL li lk LR =>
        have hlref : l = some li := hl.node_ref
        subst hlref
        obtain ⟨lk0, ll, lr, LL0, LR0, hLeq, hgl, -, -⟩ := hl.node_inv
        injection hLeq with e1 e2 e3 e4
        subst e1; subst e3; subst e4
        cases R with
        | node RL ri rk RR =>
          have hrref : r = some ri := hr.node_ref
          subst hrref
          obtain ⟨rk0, rl, rr, RL0, RR0, hReq, hgr, -, -⟩ := hr.node_inv
          injection hReq with f1 f2 f3 f4
          subst f1; subst f3; subst f4
          simp only [sizeT_node] at hN hfuel
          have hstep : checkInvariantAux (f + 1) h (i :: rest) visited =
              (if lk > k then false
               else if rk < k then false
               else checkInvariantAux f h (ri :: li :: rest) (i :: visited)) := by
            simp only [checkInvariantAux]
            rw [if_neg hivis]
            simp only [hg, hgl, hgr]
          rw [hstep]
          by_cases hlk : lk > k
          · rw [if_pos hlk]
            simp only [Bool.false_eq_true, false_iff]
            intro hall
            have hT := hall _ (List.mem_cons_self _ _)
            rw [localOk_node_iff] at hT
            exact absurd hlk (by simpa using hT.1 lk (by simp [rootKey]))
          · rw [if_neg hlk]
            by_cases hrk : rk < k
            · rw [if_pos hrk]
              simp only [Bool.false_eq_true, false_iff]
              intro hall
              have hT := hall _ (List.mem_cons_self _ _)
              rw [localOk_node_iff] at hT
              exact absurd hrk (by simpa using hT.2.1 rk (by simp [rootKey]))
            · rw [if_neg hrk]
              have hf2'' : List.Forall₂ (fun i T => ∃ p, IsRepr h p (some i) T)
                  (ri :: li :: rest) (ITree.node RL ri rk RR ::
                    ITree.node LL li lk LR :: Ts') :=
                .cons ⟨some i, hr⟩ (.cons ⟨some i, hl⟩ hf2')
              have hnd'' : ((i :: visited) ++
                  idsAll (ITree.node RL ri rk RR ::
                    ITree.node LL li lk LR :: Ts')).Nodup := by
                simpa [idsAll, List.append_assoc] using hnd1
              have hNle : totalSize (ITree.node RL ri rk RR ::
                  ITree.node LL li lk LR :: Ts') ≤ N := by
                simp only [totalSize, sizeT_node]
                omega
              have hfu : totalSize (ITree.node RL ri rk RR ::
                  ITree.node LL li lk LR :: Ts') + 1 ≤ f := by
                simp only [totalSize, sizeT_node]
                omega
              rw [ih _ _ _ _ _ hNle hf2'' hnd'' hfu]
              simp only [List.forall_mem_cons]
              constructor
              · rintro ⟨hRok, hLok, hrest⟩
                refine ⟨?_, hrest⟩
                rw [localOk_node_iff]
                refine ⟨?_, ?_, hLok, hRok⟩
                · intro a ha
                  simp [rootKey] at ha
                  omega
                · intro b hb
                  simp [rootKey] at hb
                  omega
              · rintro ⟨hTok, hrest⟩
                rw [localOk_node_iff] at hTok
                exact ⟨hTok.2.2.2, hTok.2.2.1, hrest⟩
        | leaf =>
          have hrref : r = none := hr.leaf_ref
          subst hrref
          simp only [sizeT_node, sizeT_leaf] at hN hfuel
          have hstep : checkInvariantAux (f + 1) h (i :: rest) visited =
              (if lk > k then false
               else checkInvariantAux f h (li :: rest) (i :: visited)) := by
            simp only [checkInvariantAux]
            rw [if_neg hivis]
            simp only [hg, hgl]
          rw [hstep]
          by_cases hlk : lk > k
          · rw [if_pos hlk]
            simp only [Bool.false_eq_true, false_iff]
            intro hall
            have hT := hall _ (List.mem_cons_self _ _)
            rw [localOk_node_iff] at hT
            exact absurd hlk (by simpa using hT.1 lk (by simp [rootKey]))
          · rw [if_neg hlk]
            have hf2'' : List.Forall₂ (fun i T => ∃ p, IsRepr h p (some i) T)
                (li :: rest) (ITree.node LL li lk LR :: Ts') :=
              .cons ⟨some i, hl⟩ hf2'
            have hnd'' : ((i :: visited) ++
                idsAll (ITree.node LL li lk LR :: Ts')).Nodup := by
              simpa [idsAll, List.append_assoc] using hnd1
            have hNle : totalSize (ITree.node LL li lk LR :: Ts') ≤ N := by
              simp only [totalSize, sizeT_node]
              omega
            have hfu : totalSize (ITree.node LL li lk LR :: Ts') + 1 ≤ f := by
              simp only [totalSize, sizeT_node]
              omega
            rw [ih _ _ _ _ _ hNle hf2'' hnd'' hfu]
            simp only [List.forall_mem_cons]
            constructor
            · rintro ⟨hLok, hrest⟩
              refine ⟨?_, hrest⟩
              rw [localOk_node_iff]
              refine ⟨?_, ?_, hLok, rfl⟩
              · intro a ha
                simp [rootKey] at ha
                omega
              · intro b hb
                simp [rootKey] at hb
            · rintro ⟨hTok, hrest⟩
              rw [localOk_node_iff] at hTok
              exact ⟨hTok.2.2.1, hrest⟩
      | leaf =>
        have hlref : l = none := hl.leaf_ref
        subst hlref
        cases R with
        | node RL ri rk RR =>
          have hrref : r = some ri := hr.node_ref
          subst hrref
          obtain ⟨rk0, rl, rr, RL0, RR0, hReq, hgr, -, -⟩ := hr.node_inv
          injection hReq with f1 f2 f3 f4
          subst f1; subst f3; subst f4
          simp only [sizeT_node, sizeT_leaf] at hN hfuel
          have hstep : checkInvariantAux (f + 1) h (i :: rest) visited =
              (if rk < k then false
               else checkInvariantAux f h (ri :: rest) (i :: visited)) := by
            simp only [checkInvariantAux]
            rw [if_neg hivis]
            simp only [hg, hgr]
          rw [hstep]
          by_cases hrk : rk < k
          · rw [if_pos hrk]
            simp only [Bool.false_eq_true, false_iff]
            intro hall
            have hT := hall _ (List.mem_cons_self _ _)
            rw [localOk_node_iff] at hT
            exact absurd hrk (by simpa using hT.2.1 rk (by simp [rootKey]))
          · rw [if_neg hrk]
            have hf2'' : List.Forall₂ (fun i T => ∃ p, IsRepr h p (some i) T)
                (ri :: rest) (ITree.node RL ri rk RR :: Ts') :=
              .cons ⟨some i, hr⟩ hf2'
            have hnd'' : ((i :: visited) ++
                idsAll (ITree.node RL ri rk RR :: Ts')).Nodup := by
              simpa [idsAll, List.append_assoc] using hnd1
            have hNle : totalSize (ITree.node RL ri rk RR :: Ts') ≤ N := by
              simp only [totalSize, sizeT_node]
              omega
            have hfu : totalSize (ITree.node RL ri rk RR :: Ts') + 1 ≤ f := by
              simp only [totalSize, sizeT_node]
              omega
            rw [ih _ _ _ _ _ hNle hf2'' hnd'' hfu]
            simp only [List.forall_mem_cons]
            constructor
            · rintro ⟨hRok, hrest⟩
              refine ⟨?_, hrest⟩
              rw [localOk_node_iff]
              refine ⟨?_, ?_, rfl, hRok⟩
              · intro a ha
                simp [rootKey] at ha
              · intro b hb
                simp [rootKey] at hb
                omega
            · rintro ⟨hTok, hrest⟩
              rw [localOk_node_iff] at hTok
              exact ⟨hTok.2.2.2, hrest⟩
        | leaf =>
          have hrref : r = none := hr.leaf_ref
          subst hrref
          simp only [sizeT_leaf] at hN hfuel
          have hstep : checkInvariantAux (f + 1) h (i :: rest) visited =
              checkInvariantAux f h rest (i :: visited) := by
            simp only [checkInvariantAux]
            rw [if_neg hivis]
            simp only [hg]
          rw [hstep]
          have hnd'' : ((i :: visited) ++ idsAll Ts').Nodup := by
            simpa using hnd1
          have hNle : totalSize Ts' ≤ N := by omega
          have hfu : totalSize Ts' + 1 ≤ f := by omega
          rw [ih _ _ _ _ _ hNle hf2' hnd'' hfu]
          simp only [List.forall_mem_cons]
          constructor
          · intro hrest
            refine ⟨?_, hrest⟩
            rw [localOk_node_iff]
            exact ⟨by intro a ha; simp [rootKey] at ha,
              by intro b hb; simp [rootKey] at hb, rfl, rfl⟩
          · rintro ⟨-, hrest⟩
            exact hrest

/-- `checkInvariant` decides exactly the local (non-strict) comparisons. -/
theorem checkInvariant_iff_localOk {t : BinarySearchTree} {T : ITree}
    (hrep : IsRepr t.heap none t.root T) (hnd : (ids T).Nodup) :
    (t.checkInvariant = true ↔ localOk T = true) := by
  unfold BinarySearchTree.checkInvariant
  cases hroot : t.root with
  | none =>
    rw [hroot] at hrep
    have hT : T = .leaf := hrep.eq_leaf
    subst hT
    simp [localOk]
  | some r =>
    rw [hroot] at hrep
    have hsz : sizeT T ≤ t.heap.length := sizeT_le_length hrep hnd
    have := checkInvariantAux_iff (totalSize [T]) [T] [r]
      (2 * t.heap.length + 2) t.heap [] le_rfl
      (.cons ⟨none, hrep⟩ .nil)
      (by simpa [idsAll] using hnd)
      (by simp [totalSize]; omega)
    rw [this]
    simp

theorem checkInvariant_of_inv {t : BinarySearchTree} {T : ITree}
    (hi : Inv t T) : t.checkInvariant = true :=
  (checkInvariant_iff_localOk hi.repr hi.nodup).mpr
    (localOk_of_ordered hi.ordered)


/-! ### The `max` descent reaches the last element of the in-order list -/

theorem maxAux_last {T : ITree} :
    ∀ {h : Heap} {p : Option Nat} {rt fuel : Nat},
      IsRepr h p (some rt) T → heightT T < fuel →
      ∃ s sk, (assoc T).getLast? = some (s, sk) ∧ maxAux fuel h (some rt) = some s := by
  induction T with
  | leaf => intro h p rt fuel hr; cases hr
  | node L i k R ihL ihR =>
    intro h p rt fuel hr hfuel
    cases hr with
    | node _ _ _ l r' _ _ hg hl hrr =>
      cases fuel with
      | zero => simp [heightT] at hfuel
      | succ f =>
        cases hR : R with
        | leaf =>
          have hrnone : r' = none := by subst hR; exact hrr.leaf_ref
          refine ⟨i, k, ?_, ?_⟩
          · rw [assoc_node]
            subst hR
            rw [assoc_leaf]
            exact List.getLast?_concat _
          · simp [maxAux, hg, hrnone]
        | node RL ri rk RR =>
          subst hR
          have hrref : r' = some ri := hrr.node_ref
          subst hrref
          have hfr : heightT (ITree.node RL ri rk RR) < f := by
            simp [heightT] at hfuel ⊢; omega
          obtain ⟨s, sk, hlast, hmax⟩ := ihR hrr hfr
          refine ⟨s, sk, ?_, ?_⟩
          · rw [assoc_node, List.getLast?_append]
            have h2 : ((i, k) :: assoc (ITree.node RL ri rk RR)).getLast? =
                some (s, sk) := by
              rw [List.getLast?_cons, hlast]
              rfl
            rw [h2]
            rfl
          · simp only [maxAux, hg]
            exact hmax

/-! ### The upward walks follow the context -/

/-- The nearest enclosing frame from which the hole is reached by going
left (its node is the in-order successor of everything in the hole). -/
def firstLeftId : Path → Option Nat
  | .stop => none
  | .fromLeft i _ _ _ => some i
  | .fromRight _ _ _ P => firstLeftId P

/-- The nearest enclosing frame from which the hole is reached by going
right. -/
def firstRightId : Path → Option Nat
  | .stop => none
  | .fromLeft _ _ _ P => firstRightId P
  | .fromRight _ i _ _ => some i

/-- Number of frames of a context. -/
def pathLen : Path → Nat
  | .stop => 0
  | .fromLeft _ _ _ P => pathLen P + 1
  | .fromRight _ _ _ P => pathLen P + 1

theorem afterA_head (P : Path) :
    (afterA P).head?.map (·.1) = firstLeftId P := by
  induction P with
  | stop => rfl
  | fromLeft i k R P ih => simp [afterA, firstLeftId]
  | fromRight L i k P ih => simpa [afterA, firstLeftId] using ih

theorem beforeA_last (P : Path) :
    (beforeA P).getLast?.map (·.1) = firstRightId P := by
  induction P with
  | stop => rfl
  | fromLeft i k R P ih => simpa [beforeA, firstRightId] using ih
  | fromRight L i k P ih =>
    simp only [beforeA, firstRightId]
    rw [List.append_assoc, List.getLast?_append]
    have h2 : (assoc L ++ [(i, k)]).getLast? = some (i, k) := List.getLast?_concat _
    rw [h2]
    rfl

theorem pathLen_le (P : Path) : pathLen P ≤ (pathIds P).length := by
  induction P with
  | stop => simp [pathLen, pathIds]
  | fromLeft i k R P ih => simp [pathLen, pathIds]; omega
  | fromRight L i k P ih => simp [pathLen, pathIds]; omega

/-- Nodup of the whole layout restricted to the context. -/
theorem path_nodup_facts {P : Path} {S : ITree}
    (hnd : (ids (plugP P S)).Nodup) :
    (pathIds P).Nodup ∧ ∀ a ∈ ids S, a ∉ pathIds P := by
  rw [ids_plugP] at hnd
  have hsub : ((beforeA P).map (·.1) ++ (afterA P).map (·.1)).Sublist
      ((beforeA P).map (·.1) ++ ids S ++ (afterA P).map (·.1)) := by
    rw [List.append_assoc]
    exact List.Sublist.append_left
      (List.sublist_append_right (ids S) ((afterA P).map (·.1))) _
  have hnd2 := hnd.sublist hsub
  have hperm := pathIds_perm P
  refine ⟨hperm.nodup_iff.mpr hnd2, ?_⟩
  intro a haS hapath
  have hmem : a ∈ (beforeA P).map (·.1) ++ (afterA P).map (·.1) :=
    hperm.mem_iff.mp hapath
  rcases List.mem_append.mp hmem with hb | ha
  · have hdj : ((beforeA P).map (·.1)).Disjoint
        (ids S ++ (afterA P).map (·.1)) := by
      rw [List.append_assoc] at hnd
      exact List.disjoint_of_nodup_append hnd
    exact hdj hb (List.mem_append_left _ haS)
  · have hdj : ((beforeA P).map (·.1) ++ ids S).Disjoint
        ((afterA P).map (·.1)) :=
      List.disjoint_of_nodup_append hnd
    exact hdj (List.mem_append_right _ haS) ha

theorem succWalk_eq {P : Path} :
    ∀ {h : Heap} {tr hp : Option Nat} {n fuel : Nat} {nd : BstNode},
      PathOk h none tr P hp (some n) →
      hget h n = some nd → nd.parent = hp →
      n ∉ pathIds P → (pathIds P).Nodup →
      pathLen P < fuel →
      succWalk fuel h n = firstLeftId P := by
  induction P with
  | stop =>
    intro h tr hp n fuel nd hok hg hpar hnp hnd hfuel
    cases hok with
    | stop =>
      cases fuel with
      | zero => omega
      | succ f =>
        simp [succWalk, hg, hpar, firstLeftId]
  | fromLeft i k R P' ih =>
    intro h tr hp n fuel nd hok hg hpar hnp hnd hfuel
    cases hok with
    | fromLeft _ gp _ _ _ rr _ hok' hgi hR =>
      cases fuel with
      | zero => simp [pathLen] at hfuel
      | succ f =>
        have hrr_ne : rr ≠ some n := by
          intro hrr
          cases R with
          | leaf => rw [hR.leaf_ref] at hrr; cases hrr
          | node RL rj rk RR =>
            rw [hR.node_ref] at hrr
            injection hrr with hj
            apply hnp
            subst hj
            exact List.mem_cons_of_mem _ (List.mem_append_left _ (by simp))
        simp [succWalk, hg, hpar, hgi, hrr_ne, firstLeftId]
  | fromRight L i k P' ih =>
    intro h tr hp n fuel nd hok hg hpar hnp hnd hfuel
    cases hok with
    | fromRight _ gp _ _ _ lr _ hok' hgi hL =>
      cases fuel with
      | zero => simp [pathLen] at hfuel
      | succ f =>
        have hred : succWalk (f + 1) h n = succWalk f h i := by
          simp [succWalk, hg, hpar, hgi]
        rw [hred]
        simp only [pathIds, List.nodup_cons, List.cons_append] at hnd
        have hiP : i ∉ pathIds P' := fun hm =>
          hnd.1 (List.mem_append_right _ hm)
        have hndP : (pathIds P').Nodup := hnd.2.of_append_right
        have hlen : pathLen P' < f := by
          simp only [pathLen] at hfuel
          omega
        rw [ih hok' hgi rfl hiP hndP hlen]
        rfl

theorem predWalk_eq {P : Path} :
    ∀ {h : Heap} {tr hp : Option Nat} {n fuel : Nat} {nd : BstNode},
      PathOk h none tr P hp (some n) →
      hget h n = some nd → nd.parent = hp →
      n ∉ pathIds P → (pathIds P).Nodup →
      pathLen P < fuel →
      predWalk fuel h n = firstRightId P := by
  induction P with
  | stop =>
    intro h tr hp n fuel nd hok hg hpar hnp hnd hfuel
    cases hok with
    | stop =>
      cases fuel with
      | zero => omega
      | succ f =>
        simp [predWalk, hg, hpar, firstRightId]
  | fromRight L i k P' ih =>
    intro h tr hp n fuel nd hok hg hpar hnp hnd hfuel
    cases hok with
    | fromRight _ gp _ _ _ lr _ hok' hgi hL =>
      cases fuel with
      | zero => simp [pathLen] at hfuel
      | succ f =>
        have hlr_ne : lr ≠ some n := by
          intro hlr
          cases L with
          | leaf => rw [hL.leaf_ref] at hlr; cases hlr
          | node LL lj lk LR =>
            rw [hL.node_ref] at hlr
            injection hlr with hj
            apply hnp
            subst hj
            exact List.mem_cons_of_mem _ (List.mem_append_left _ (by simp))
        simp [predWalk, hg, hpar, hgi, hlr_ne, firstRightId]
  | fromLeft i k R P' ih =>
    intro h tr hp n fuel nd hok hg hpar hnp hnd hfuel
    cases hok with
    | fromLeft _ gp _ _ _ rr _ hok' hgi hR =>
      cases fuel with
      | zero => simp [pathLen] at hfuel
      | succ f =>
        have hred : predWalk (f + 1) h n = predWalk f h i := by
          simp [predWalk, hg, hpar, hgi]
        rw [hred]
        simp only [pathIds, List.nodup_cons, List.cons_append] at hnd
        have hiP : i ∉ pathIds P' := fun hm =>
          hnd.1 (List.mem_append_right _ hm)
        have hndP : (pathIds P').Nodup := hnd.2.of_append_right
        have hlen : pathLen P' < f := by
          simp only [pathLen] at hfuel
          omega
        rw [ih hok' hgi rfl hiP hndP hlen]
        rfl


/-! ### Positions in the in-order list -/

theorem get_split_pos {l pre post : List (Nat × Int)} {x : Nat × Int} {j : Nat}
    (hnd : (l.map (·.2)).Nodup) (hl : l = pre ++ x :: post)
    (hj : l.get? j = some x) : j = pre.length := by
  have hx : l.get? pre.length = some x := by
    rw [hl, List.get?_append_right le_rfl, Nat.sub_self]
    rfl
  have hjlt : j < l.length := (List.get?_eq_some.mp hj).1
  have hmape : (l.map (·.2)).get? j = (l.map (·.2)).get? pre.length := by
    rw [List.get?_map, List.get?_map, hj, hx]
  exact List.get?_inj (by rwa [List.length_map]) hnd hmape

theorem get_split_next {l pre post : List (Nat × Int)} {x : Nat × Int} {j : Nat}
    (hnd : (l.map (·.2)).Nodup) (hl : l = pre ++ x :: post)
    (hj : l.get? j = some x) : l.get? (j + 1) = post.head? := by
  have hjp : j = pre.length := get_split_pos hnd hl hj
  subst hjp
  rw [hl, List.get?_append_right (by omega)]
  have h1 : pre.length + 1 - pre.length = 1 := by omega
  rw [h1, List.get?_cons_succ, List.get?_zero]

theorem get_split_prev {l pre post : List (Nat × Int)} {x : Nat × Int} {j : Nat}
    (hnd : (l.map (·.2)).Nodup) (hl : l = pre ++ x :: post)
    (hj : l.get? (j + 1) = some x) : l.get? j = pre.getLast? := by
  have hjp : j + 1 = pre.length := get_split_pos hnd hl hj
  have hjlt : j < pre.length := by omega
  rw [hl, List.get?_append hjlt, List.getLast?_eq_get?]
  have h1 : pre.length - 1 = j := by omega
  rw [h1]

theorem assoc_eq_nil {T : ITree} (h : assoc T = []) : T = .leaf := by
  cases T with
  | leaf => rfl
  | node L i k R => simp at h

/-- Under the invariant, resolving a key that the in-order list holds at a
given pair yields exactly that node. -/
theorem findT_assoc_mem {T : ITree} (hord : Ordered T) {n : Nat} {a : Int}
    (hmem : (n, a) ∈ assoc T) : findT T a = some n := by
  have hka : a ∈ keysT T := by
    simp only [keysT, List.mem_map]
    exact ⟨(n, a), hmem, rfl⟩
  obtain ⟨m, hfind, hmmem⟩ := findT_isSome_of_mem hord hka
  have hinj := List.inj_on_of_nodup_map (l := assoc T) hord.keys_nodup
  have heq : (m, a) = (n, a) := hinj hmmem hmem rfl
  rw [hfind]
  exact congrArg some (congrArg Prod.fst heq)

/-- Decomposition of the state at a node found by key. -/
theorem inv_decomp {t : BinarySearchTree} {T : ITree} (hi : Inv t T)
    {key : Int} {n : Nat} (hf : findT T key = some n) :
    ∃ P SL SR hp sl sr,
      T = plugP P (.node SL n key SR) ∧
      PathOk t.heap none t.root P hp (some n) ∧
      hget t.heap n = some ⟨key, hp, sl, sr⟩ ∧
      IsRepr t.heap (some n) sl SL ∧ IsRepr t.heap (some n) sr SR := by
  obtain ⟨P, SL, SR, hp, hTeq, hok, hS⟩ := repr_decomp hi.repr hf
  obtain ⟨k', sl, sr, SL', SR', heq, hg, hsl, hsr⟩ := hS.node_inv
  injection heq with e1 e2 e3 e4
  subst e1; subst e3; subst e4
  exact ⟨P, SL, SR, hp, sl, sr, hTeq, hok, hg, hsl, hsr⟩

/-! ### `successor` and `predecessor` move one step in the in-order list -/

theorem successor_get_eq {t : BinarySearchTree} {T : ITree} (hi : Inv t T)
    {j na : Nat} {a : Int}
    (hj : (assoc T).get? j = some (na, a)) :
    t.successor a = ((assoc T).get? (j + 1)).map (·.1) := by
  have hmem : (na, a) ∈ assoc T := List.get?_mem hj
  have hfind : findT T a = some na := findT_assoc_mem hi.ordered hmem
  obtain ⟨P, SL, SR, hp, sl, sr, hTeq, hok, hg, hsl, hsr⟩ := inv_decomp hi hfind
  have hl : assoc T =
      (beforeA P ++ assoc SL) ++ (na, a) :: (assoc SR ++ afterA P) := by
    rw [hTeq, assoc_plugP, assoc_node]
    simp [List.append_assoc]
  have hnext : (assoc T).get? (j + 1) = (assoc SR ++ afterA P).head? :=
    get_split_next hi.ordered.keys_nodup hl hj
  have hszT : sizeT T ≤ t.heap.length := sizeT_le_length hi.repr hi.nodup
  rw [BinarySearchTree.successor, search_eq_findT hi, hfind]
  cases hsrv : sr with
  | some ra =>
    rw [hsrv] at hg hsr
    cases hSR : SR with
    | leaf =>
      rw [hSR] at hsr
      cases hsr.leaf_ref
    | node SRL sri srk SRR =>
      rw [hSR] at hsr
      have hsz : sizeT (ITree.node SRL sri srk SRR) ≤ sizeT T := by
        rw [← length_assoc, ← length_assoc, hl, hSR]
        simp
        omega
      have hht : heightT (ITree.node SRL sri srk SRR) < t.heap.length + 1 := by
        have := heightT_le_sizeT (ITree.node SRL sri srk SRR)
        omega
      obtain ⟨s, sk, hhead, hmin⟩ := minAux_head hsr hht
      simp only [BinarySearchTree.succ, hg]
      rw [BinarySearchTree.min]
      rw [hmin, hnext, hSR]
      cases hal : assoc (ITree.node SRL sri srk SRR) with
      | nil => rw [hal] at hhead; cases hhead
      | cons c tl =>
        rw [hal] at hhead
        simp only [List.head?_cons, Option.some.injEq] at hhead
        subst hhead
        rfl
  | none =>
    rw [hsrv] at hg hsr
    have hSRleaf : SR = .leaf := hsr.eq_leaf
    subst hSRleaf
    have hndids : (ids (plugP P (ITree.node SL na a ITree.leaf))).Nodup := by
      rw [← hTeq]; exact hi.nodup
    obtain ⟨hndP, hdisj⟩ := path_nodup_facts hndids
    have hnaP : na ∉ pathIds P := hdisj na (by simp)
    have hplen : pathLen P < t.heap.length + 1 := by
      have h1 := pathLen_le P
      have h2 : (pathIds P).length =
          ((beforeA P).map (·.1) ++ (afterA P).map (·.1)).length :=
        (pathIds_perm P).length_eq
      have h3 : (assoc T).length = sizeT T := length_assoc T
      rw [hl] at h3
      simp at h2 h3
      omega
    have hwalk := succWalk_eq hok hg rfl hnaP hndP hplen
    simp only [BinarySearchTree.succ, hg]
    rw [hwalk, hnext]
    simp [← afterA_head P]

theorem predecessor_get_eq {t : BinarySearchTree} {T : ITree} (hi : Inv t T)
    {j nb : Nat} {b : Int}
    (hj : (assoc T).get? (j + 1) = some (nb, b)) :
    t.predecessor b = ((assoc T).get? j).map (·.1) := by
  have hmem : (nb, b) ∈ assoc T := List.get?_mem hj
  have hfind : findT T b = some nb := findT_assoc_mem hi.ordered hmem
  obtain ⟨P, SL, SR, hp, sl, sr, hTeq, hok, hg, hsl, hsr⟩ := inv_decomp hi hfind
  have hl : assoc T =
      (beforeA P ++ assoc SL) ++ (nb, b) :: (assoc SR ++ afterA P) := by
    rw [hTeq, assoc_plugP, assoc_node]
    simp [List.append_assoc]
  have hprev : (assoc T).get? j = (beforeA P ++ assoc SL).getLast? :=
    get_split_prev hi.ordered.keys_nodup hl hj
  have hszT : sizeT T ≤ t.heap.length := sizeT_le_length hi.repr hi.nodup
  rw [BinarySearchTree.predecessor, search_eq_findT hi, hfind]
  cases hslv : sl with
  | some la =>
    rw [hslv] at hg hsl
    cases hSL : SL with
    | leaf =>
      rw [hSL] at hsl
      cases hsl.leaf_ref
    | node SLL sli slk SLR =>
      rw [hSL] at hsl
      have hsz : sizeT (ITree.node SLL sli slk SLR) ≤ sizeT T := by
        rw [← length_assoc, ← length_assoc, hl, hSL]
        simp
        omega
      have hht : heightT (ITree.node SLL sli slk SLR) < t.heap.length + 1 := by
        have := heightT_le_sizeT (ITree.node SLL sli slk SLR)
        omega
      obtain ⟨s, sk, hlast, hmax⟩ := maxAux_last hsl hht
      simp only [BinarySearchTree.pred, hg]
      rw [BinarySearchTree.max]
      rw [hmax, hprev, hSL, List.getLast?_append, hlast]
      rfl
  | none =>
    rw [hslv] at hg hsl
    have hSLleaf : SL = .leaf := hsl.eq_leaf
    subst hSLleaf
    have hndids : (ids (plugP P (ITree.node ITree.leaf nb b SR))).Nodup := by
      rw [← hTeq]; exact hi.nodup
    obtain ⟨hndP, hdisj⟩ := path_nodup_facts hndids
    have hnbP : nb ∉ pathIds P := hdisj nb (by simp)
    have hplen : pathLen P < t.heap.length + 1 := by
      have h1 := pathLen_le P
      have h2 : (pathIds P).length =
          ((beforeA P).map (·.1) ++ (afterA P).map (·.1)).length :=
        (pathIds_perm P).length_eq
      have h3 : (assoc T).length = sizeT T := length_assoc T
      rw [hl] at h3
      simp at h2 h3
      omega
    have hwalk := predWalk_eq hok hg rfl hnbP hndP hplen
    simp only [BinarySearchTree.pred, hg]
    rw [hwalk, hprev]
    simp [← beforeA_last P]

/-- The first in-order element has no predecessor. -/
theorem predecessor_get0 {t : BinarySearchTree} {T : ITree} (hi : Inv t T)
    {nb : Nat} {b : Int}
    (hj : (assoc T).get? 0 = some (nb, b)) :
    t.predecessor b = none := by
  have hmem : (nb, b) ∈ assoc T := List.get?_mem hj
  have hfind : findT T b = some nb := findT_assoc_mem hi.ordered hmem
  obtain ⟨P, SL, SR, hp, sl, sr, hTeq, hok, hg, hsl, hsr⟩ := inv_decomp hi hfind
  have hl : assoc T =
      (beforeA P ++ assoc SL) ++ (nb, b) :: (assoc SR ++ afterA P) := by
    rw [hTeq, assoc_plugP, assoc_node]
    simp [List.append_assoc]
  have hpos : 0 = (beforeA P ++ assoc SL).length :=
    get_split_pos hi.ordered.keys_nodup hl hj
  have hpre : beforeA P = [] ∧ assoc SL = [] := by
    rw [← List.length_eq_zero, ← List.length_eq_zero]
    simp at hpos
    omega
  have hSLleaf : SL = .leaf := assoc_eq_nil hpre.2
  subst hSLleaf
  have hslnone : sl = none := hsl.leaf_ref
  rw [hslnone] at hg
  have hndids : (ids (plugP P (ITree.node ITree.leaf nb b SR))).Nodup := by
    rw [← hTeq]; exact hi.nodup
  obtain ⟨hndP, hdisj⟩ := path_nodup_facts hndids
  have hnbP : nb ∉ pathIds P := hdisj nb (by simp)
  have hszT : sizeT T ≤ t.heap.length := sizeT_le_length hi.repr hi.nodup
  have hplen : pathLen P < t.heap.length + 1 := by
    have h1 := pathLen_le P
    have h2 : (pathIds P).length =
        ((beforeA P).map (·.1) ++ (afterA P).map (·.1)).length :=
      (pathIds_perm P).length_eq
    have h3 : (assoc T).length = sizeT T := length_assoc T
    rw [hl] at h3
    simp at h2 h3
    omega
  have hwalk := predWalk_eq hok hg rfl hnbP hndP hplen
  rw [BinarySearchTree.predecessor, search_eq_findT hi, hfind]
  simp only [BinarySearchTree.pred, hg]
  rw [hwalk]
  have hfr : firstRightId P = none := by
    rw [← beforeA_last P, hpre.1]
    rfl
  exact hfr

/-- A key that is not in the tree has no successor (the `search` miss is
propagated). -/
theorem successor_not_mem {t : BinarySearchTree} {T : ITree} (hi : Inv t T)
    {key : Int} (hk : key ∉ keysT T) : t.successor key = none := by
  rw [BinarySearchTree.successor, search_eq_findT hi,
    findT_none_of_not_mem hk]
  rfl

theorem predecessor_not_mem {t : BinarySearchTree} {T : ITree} (hi : Inv t T)
    {key : Int} (hk : key ∉ keysT T) : t.predecessor key = none := by
  rw [BinarySearchTree.predecessor, search_eq_findT hi,
    findT_none_of_not_mem hk]
  rfl


/-! ### Keys of the in-order node list; building a tree from a key list -/

/-- The key stored at an identity (0 for a dangling identity). -/
def keyAt (h : Heap) (i : Nat) : Int :=
  match hget h i with
  | some nd => nd.key
  | none => 0

theorem ids_map_keyAt {T : ITree} {h : Heap} {p r : Option Nat}
    (hr : IsRepr h p r T) : (ids T).map (keyAt h) = keysT T :=
  ids_map_key hr

/-- Build a tree by inserting the keys left to right (the thrown duplicate
error, if any, leaves the state of the first component). -/
def insertList (t : BinarySearchTree) (ks : List Int) : BinarySearchTree :=
  ks.foldl (fun s k => (s.insert k).1) t

theorem insertList_inv (ks : List Int) :
    ∀ {t : BinarySearchTree} {T : ITree}, Inv t T → ks.Nodup →
      (∀ k ∈ ks, k ∉ keysT T) →
      ∃ T', Inv (insertList t ks) T' ∧ keysT T' ~ ks ++ keysT T := by
  induction ks with
  | nil =>
    intro t T hi _ _
    exact ⟨T, hi, by simp⟩
  | cons k ks ih =>
    intro t T hi hnd hfresh
    have hk : k ∉ keysT T := hfresh k (by simp)
    obtain ⟨t', heq, hinv, -, -⟩ := insert_ok hi hk
    have hstep : insertList t (k :: ks) = insertList t' ks := by
      simp [insertList, heq]
    rw [hstep]
    have hkeys1 : keysT (insertT T t.nextId k) ~ k :: keysT T :=
      keysT_insertT T t.nextId k
    have hfresh' : ∀ a ∈ ks, a ∉ keysT (insertT T t.nextId k) := by
      intro a ha hmem
      have hm2 : a ∈ k :: keysT T := hkeys1.subset hmem
      rcases List.mem_cons.mp hm2 with rfl | hm3
      · exact (List.nodup_cons.mp hnd).1 ha
      · exact hfresh a (by simp [ha]) hm3
    obtain ⟨T', hinv', hperm⟩ := ih hinv (List.nodup_cons.mp hnd).2 hfresh'
    refine ⟨T', hinv', ?_⟩
    calc keysT T' ~ ks ++ keysT (insertT T t.nextId k) := hperm
      _ ~ ks ++ (k :: keysT T) := List.Perm.append_left ks hkeys1
      _ ~ (k :: ks) ++ keysT T := List.perm_middle

theorem inOrderKeys_eq {t : BinarySearchTree} {T : ITree} (hi : Inv t T) :
    t.inOrderKeys = ids T := by
  rw [BinarySearchTree.inOrderKeys,
    inOrderAux_eq hi.repr (heightT_lt_fuel hi.repr hi.nodup)]
  simp

/-- Pre-order key sequence (self, left, right) of an abstract tree. -/
def preorderT : ITree → List Int
  | .leaf => []
  | .node L _ k R => k :: (preorderT L ++ preorderT R)

/-! ### Concrete witness states -/

/-- A one-node tree holding the key 5. -/
def tW : BinarySearchTree := ⟨[(0, ⟨5, none, none, none⟩)], some 0, 1, 1⟩

def TW : ITree := .node .leaf 0 5 .leaf

theorem invW : Inv tW TW := by
  refine ⟨?_, by decide, by decide, by decide, by decide⟩
  exact .node none 0 5 none none .leaf .leaf (by decide) (.leaf _) (.leaf _)

/-- A well-shaped two-node store in which the left child's key equals its
parent's key. -/
def tEq : BinarySearchTree :=
  ⟨[(0, ⟨5, none, some 1, none⟩), (1, ⟨5, some 0, none, none⟩)], some 0, 2, 2⟩

def TEq : ITree := .node (.node .leaf 1 5 .leaf) 0 5 .leaf

theorem repr_tEq : IsRepr tEq.heap none tEq.root TEq :=
  .node none 0 5 (some 1) none _ _ (by decide)
    (.node (some 0) 1 5 none none _ _ (by decide) (.leaf _) (.leaf _))
    (.leaf _)

/-- The state reached by inserting 2, 1, 3, 0 into the empty tree. -/
def t8 : BinarySearchTree := insertList emptyTree [2, 1, 3, 0]

def T8 : ITree :=
  .node (.node (.node .leaf 3 0 .leaf) 1 1 .leaf) 0 2 (.node .leaf 2 3 .leaf)

theorem inv_t8 : Inv t8 T8 := by
  refine ⟨?_, by decide, by decide, by decide, by decide⟩
  exact .node none 0 2 (some 1) (some 2) _ _ (by decide)
    (.node (some 0) 1 1 (some 3) none _ _ (by decide)
      (.node (some 1) 3 0 none none _ _ (by decide) (.leaf _) (.leaf _))
      (.leaf _))
    (.node (some 0) 2 3 none none _ _ (by decide) (.leaf _) (.leaf _))

/-! ### The claims -/

/-- C1: for every sequence of `insert`/`delete` operations applied to the
initially empty tree, `checkInvariant()` returns true after every operation
(every state reached by such a sequence, hence the state after each prefix,
passes the check). -/
theorem claim_c1 (ops : List Op) :
    (applyOps emptyTree ops).checkInvariant = true := by
  obtain ⟨T, hi⟩ := applyOps_empty_inv ops
  exact checkInvariant_of_inv hi

/-- C2: deleting a key that is present removes exactly one node (the layout
loses exactly the pair of the deleted node), decrements `size()` by one,
makes a subsequent `search` of the key miss, and preserves the checked
invariant. -/
theorem claim_c2 {t : BinarySearchTree} {T : ITree} {key : Int}
    (hi : Inv t T) (hk : key ∈ keysT T) :
    ∃ n T', t.search key = some n ∧ Inv (t.delete key) T' ∧
      assoc T ~ (n, key) :: assoc T' ∧
      (t.delete key).size = t.size - 1 ∧
      (t.delete key).search key = none ∧
      (t.delete key).checkInvariant = true := by
  obtain ⟨n, T', hsearch, hinv', hperm⟩ := delete_mem hi hk
  have hkperm : keysT T ~ key :: keysT T' := by
    have := hperm.map (·.2)
    simpa [keysT] using this
  have hknot : key ∉ keysT T' := by
    have hnd2 : (key :: keysT T').Nodup :=
      (hkperm.nodup_iff).mp hi.ordered.keys_nodup
    exact (List.nodup_cons.mp hnd2).1
  have hsz : (t.delete key).size = t.size - 1 := by
    have h1 : (t.delete key)._size = (sizeT T' : Int) := hinv'.size_eq
    have h2 : t._size = (sizeT T : Int) := hi.size_eq
    have h3 : (assoc T).length = ((n, key) :: assoc T').length := hperm.length_eq
    rw [length_assoc] at h3
    simp [length_assoc T'] at h3
    show (t.delete key)._size = t._size - 1
    rw [h1, h2]
    omega
  exact ⟨n, T', hsearch, hinv', hperm, hsz,
    (search_none_iff hinv' key).mpr hknot, checkInvariant_of_inv hinv'⟩

/-- C2 witness: deleting the key 5 from the one-node tree holding it. -/
theorem claim_c2_witness :
    ∃ n T', tW.search 5 = some n ∧ Inv (tW.delete 5) T' ∧
      assoc TW ~ (n, 5) :: assoc T' ∧
      (tW.delete 5).size = tW.size - 1 ∧
      (tW.delete 5).search 5 = none ∧
      (tW.delete 5).checkInvariant = true :=
  claim_c2 invW (by decide)

/-- C3: inserting a key that is already present returns the `DuplicateKey`
error and the literally unchanged state (hence unchanged `size()`, root and
all node records). -/
theorem claim_c3 {t : BinarySearchTree} {T : ITree} {key : Int}
    (hi : Inv t T) (hk : key ∈ keysT T) :
    t.insert key = (t, some (JsError.duplicateKey key)) :=
  insert_dup hi hk

/-- C3 witness: inserting 5 into the one-node tree holding 5. -/
theorem claim_c3_witness :
    tW.insert 5 = (tW, some (JsError.duplicateKey 5)) :=
  claim_c3 invW (by decide)

/-- C4: on the tree built by inserting any duplicate-free key list into the
empty tree, `inOrderKeys()` returns the nodes of the layout in order, and
their stored keys are sorted and are exactly the inserted key set. -/
theorem claim_c4 {ks : List Int} (hnd : ks.Nodup) :
    ∃ T, Inv (insertList emptyTree ks) T ∧
      (insertList emptyTree ks).inOrderKeys = ids T ∧
      ((insertList emptyTree ks).inOrderKeys.map
        (keyAt (insertList emptyTree ks).heap)).Sorted (· < ·) ∧
      (insertList emptyTree ks).inOrderKeys.map
        (keyAt (insertList emptyTree ks).heap) ~ ks := by
  obtain ⟨T, hinv, hperm⟩ := insertList_inv ks inv_empty hnd (by simp)
  have hio : (insertList emptyTree ks).inOrderKeys = ids T := inOrderKeys_eq hinv
  have hmap : (ids T).map (keyAt (insertList emptyTree ks).heap) = keysT T :=
    ids_map_keyAt hinv.repr
  have hps : keysT T ~ ks := by simpa using hperm
  refine ⟨T, hinv, hio, ?_, ?_⟩
  · rw [hio, hmap]
    exact (ordered_iff_sorted T).mp hinv.ordered
  · rw [hio, hmap]
    exact hps

/-- C4 witness: the key list 2, 1, 3. -/
theorem claim_c4_witness :
    [2, 1, 3].Nodup ∧
      (∃ T, Inv (insertList emptyTree [2, 1, 3]) T ∧
        (insertList emptyTree [2, 1, 3]).inOrderKeys = ids T ∧
        ((insertList emptyTree [2, 1, 3]).inOrderKeys.map
          (keyAt (insertList emptyTree [2, 1, 3]).heap)).Sorted (· < ·) ∧
        (insertList emptyTree [2, 1, 3]).inOrderKeys.map
          (keyAt (insertList emptyTree [2, 1, 3]).heap) ~ [2, 1, 3]) :=
  ⟨by decide, claim_c4 (by decide)⟩

/-- C5: reading the in-order association list of a well-formed state (whose
key column is sorted ascending), `successor` of an entry's key returns the
identity of the next entry and `predecessor` of the next entry's key returns
the identity of the entry; the first entry's key has no predecessor, the
last entry's key has no successor, and keys not in the tree have neither. -/
theorem claim_c5 {t : BinarySearchTree} {T : ITree} (hi : Inv t T) :
    ((assoc T).map (·.2)).Sorted (· < ·) ∧
    (∀ j na nb a b, (assoc T).get? j = some (na, a) →
        (assoc T).get? (j + 1) = some (nb, b) →
        t.successor a = some nb ∧ t.predecessor b = some na) ∧
    (∀ n0 k0, (assoc T).head? = some (n0, k0) → t.predecessor k0 = none) ∧
    (∀ nm km, (assoc T).getLast? = some (nm, km) → t.successor km = none) ∧
    (∀ key, key ∉ keysT T →
        t.predecessor key = none ∧ t.successor key = none) := by
  refine ⟨(ordered_iff_sorted T).mp hi.ordered, ?_, ?_, ?_, ?_⟩
  · intro j na nb a b ha hb
    constructor
    · rw [successor_get_eq hi ha, hb]
      rfl
    · rw [predecessor_get_eq hi hb, ha]
      rfl
  · intro n0 k0 hh
    exact predecessor_get0 hi (by rw [List.get?_zero]; exact hh)
  · intro nm km hh
    have hne : assoc T ≠ [] := by
      intro he
      rw [he] at hh
      cases hh
    have hpos : 0 < (assoc T).length := List.length_pos.mpr hne
    have hj : (assoc T).get? ((assoc T).length - 1) = some (nm, km) := by
      rw [← List.getLast?_eq_get?]
      exact hh
    rw [successor_get_eq hi hj]
    have hnil : (assoc T).get? ((assoc T).length - 1 + 1) = none :=
      List.get?_eq_none.mpr (by omega)
    rw [hnil]
    rfl
  · intro key hk
    exact ⟨predecessor_not_mem hi hk, successor_not_mem hi hk⟩

/-- C5 witness: the one-node tree holding 5. -/
theorem claim_c5_witness :
    ((assoc TW).map (·.2)).Sorted (· < ·) ∧
    (∀ j na nb a b, (assoc TW).get? j = some (na, a) →
        (assoc TW).get? (j + 1) = some (nb, b) →
        tW.successor a = some nb ∧ tW.predecessor b = some na) ∧
    (∀ n0 k0, (assoc TW).head? = some (n0, k0) → tW.predecessor k0 = none) ∧
    (∀ nm km, (assoc TW).getLast? = some (nm, km) → tW.successor km = none) ∧
    (∀ key, key ∉ keysT TW →
        tW.predecessor key = none ∧ tW.successor key = none) :=
  claim_c5 invW

/-- C6: after every sequence of operations from the empty tree, `size()`
equals the number of nodes reachable from the root. -/
theorem claim_c6 (ops : List Op) :
    (applyOps emptyTree ops).size =
      (countNodes ((applyOps emptyTree ops).heap.length + 1)
        (applyOps emptyTree ops).heap (applyOps emptyTree ops).root : Int) := by
  obtain ⟨T, hi⟩ := applyOps_empty_inv ops
  rw [countNodes_eq hi.repr (heightT_lt_fuel hi.repr hi.nodup)]
  exact hi.size_eq

/-- C7 (amended): on a tree-shaped store with distinct node identities,
`checkInvariant()` returns true exactly when no left child's key exceeds its
parent's key and no right child's key is below its parent's key — the
comparisons are non-strict, so equal parent/child keys pass the check,
contrary to the claimed strict characterisation. -/
theorem claim_c7 {t : BinarySearchTree} {T : ITree}
    (hrep : IsRepr t.heap none t.root T) (hnd : (ids T).Nodup) :
    (t.checkInvariant = true ↔ localOk T = true) :=
  checkInvariant_iff_localOk hrep hnd

/-- C7 witness: the one-node tree holding 5. -/
theorem claim_c7_witness :
    (tW.checkInvariant = true ↔ localOk TW = true) :=
  claim_c7 invW.repr (by decide)

/-- C7 counterexample: a store whose left child's key equals its parent's
key (a strict-invariant violation) still passes `checkInvariant()`. -/
theorem claim_c7_counterexample :
    IsRepr tEq.heap none tEq.root TEq ∧ (ids TEq).Nodup ∧
    (∃ nd cnd, hget tEq.heap 0 = some nd ∧ nd.left = some 1 ∧
        hget tEq.heap 1 = some cnd ∧ cnd.key = nd.key) ∧
    tEq.checkInvariant = true :=
  ⟨repr_tEq, by decide, ⟨_, _, rfl, rfl, rfl, rfl⟩, by decide⟩

/-- C8 (refuted): `preOrderKeys()` does not return the keys in pre-order;
on the well-formed four-node state reached by inserting 2, 1, 3, 0 it
returns [2, 1, 3, 0], while the pre-order (self, left, right) sequence is
[2, 1, 0, 3]. -/
theorem claim_c8 :
    ∃ t T, Inv t T ∧ preorderT T = [2, 1, 0, 3] ∧
      t.preOrderKeys = [2, 1, 3, 0] ∧ t.preOrderKeys ≠ preorderT T :=
  ⟨t8, T8, inv_t8, by decide, by decide, by decide⟩

/-- C9: deleting a key that is not present returns the literally unchanged
state (hence unchanged `size()` and structure); this includes the empty
tree. -/
theorem claim_c9 {t : BinarySearchTree} {T : ITree} {key : Int}
    (hi : Inv t T) (hk : key ∉ keysT T) :
    t.delete key = t :=
  delete_not_mem hi hk

/-- C9 witness: deleting 5 from the empty tree. -/
theorem claim_c9_witness : emptyTree.delete 5 = emptyTree :=
  claim_c9 inv_empty (by decide)

/-- C10: after every sequence of operations from the empty tree, every
reachable node's `parent` pointer designates its structural parent (and the
root's parent is absent). -/
theorem claim_c10 (ops : List Op) :
    parentsOk ((applyOps emptyTree ops).heap.length + 1)
      (applyOps emptyTree ops).heap none (applyOps emptyTree ops).root = true := by
  obtain ⟨T, hi⟩ := applyOps_empty_inv ops
  exact parentsOk_eq hi.repr (heightT_lt_fuel hi.repr hi.nodup)

end BstJs
